import Mathlib

/-!
Verification development for `checkout_last_signed_commit.py` from the
`git-sha-verify` repository.

The script resolves, for a remote git repository, the most recent commit on
its default branch whose GPG signature verifies (`git log --pretty="%G? %H"`
status `G` or `U`), importing committer keys fetched from a GitLab user
directory, while progressively deepening a shallow fetch window.

The shallow embedding below models:
  * the pure helpers (`fetch_user_uid`, `get_signed_commit_sha`,
    `create_checkout_dir`, the import-success test of `main`,
    the `"remote:.*Total 0 .*"` fetch-output test of `main`);
  * the `main` trust-resolution loop as a fuel-indexed recursion over an
    abstract environment `Env` supplying the external services (git fetch
    output, committer emails, GitLab user search, per-uid GPG key fetch,
    `gnupg` import results, and the signed-commit log as a function of the
    fetch depth and of the key material imported so far).

Every external call made by the loop is recorded in a trace of `Event`s so
that temporal claims (classification at-most-once, short-circuit on success,
depth monotonicity) can be stated and proved.
-/

/-! ## Character-list string utilities

Python's `re.search` uses on two fixed patterns in `main`:
`"remote:.*Total 0 .*"` (fetch output) and
`"gpg: no valid OpenPGP data found"` (import diagnostics, a literal
substring search).  `.` does not match a newline, so the first pattern
holds exactly when some occurrence of `"remote:"` is followed, on the same
line, by `"Total 0 "`.  We implement both over `List Char` by structural
recursion so that concrete runs evaluate inside the kernel. -/

/-- `startsWithChars pat l` is true when `pat` is an initial segment of `l`. -/
def startsWithChars : List Char → List Char → Bool
  | [], _ => true
  | _ :: _, [] => false
  | p :: ps, c :: cs => p == c && startsWithChars ps cs

/-- `containsChars pat l` is true when `pat` occurs contiguously in `l`. -/
def containsChars (pat : List Char) : List Char → Bool
  | [] => startsWithChars pat []
  | c :: cs => startsWithChars pat (c :: cs) || containsChars pat cs

/-- Literal substring test: does `s` contain `pat`?  This embeds
`re.search` applied to a pattern with no metacharacters, as in
`re.search(r"gpg: no valid OpenPGP data found", import_result.stderr)`. -/
def containsSub (s pat : String) : Bool :=
  containsChars pat.data s.data

/-- The marker list for `"remote:"`. -/
def remoteMarker : List Char := "remote:".data

/-- The marker list for `"Total 0 "`. -/
def totalZeroMarker : List Char := "Total 0 ".data

/-- Auxiliary scan for `FETCH_NO_NEW_COMMITS_REGEX = "remote:.*Total 0 .*"`:
at each position, if `"remote:"` starts here, the rest of the current line
(characters up to the next newline, since `.` does not match `\n`)
must contain `"Total 0 "`. -/
def noNewCommitsScan : List Char → Bool
  | [] => false
  | c :: cs =>
    (startsWithChars remoteMarker (c :: cs) &&
      containsChars totalZeroMarker
        (((c :: cs).drop remoteMarker.length).takeWhile (fun ch => ch != '\n')))
    || noNewCommitsScan cs

/-- Embeds `re.search(FETCH_NO_NEW_COMMITS_REGEX, fetch_output) is not None`
where `FETCH_NO_NEW_COMMITS_REGEX = "remote:.*Total 0 .*"` (line 38 and
lines 280-281 of the source). -/
def matchesNoNewCommits (s : String) : Bool :=
  noNewCommitsScan s.data

/-! ## Constants (lines 31-38 of the source) -/

/-- `INITIAL_GIT_FETCH_DEPTH = 2`. -/
def INITIAL_GIT_FETCH_DEPTH : Nat := 2

/-- `GIT_FETCH_DEPTH_LIMIT = 2147483647` (the git protocol's "infinite
depth" value, the largest signed 32-bit integer). -/
def GIT_FETCH_DEPTH_LIMIT : Nat := 2147483647

/-! ## `GitCheckVerifiedCommit.get_signed_commit_sha` (lines 227-236)

The method runs `git log <ref> --pretty="%G? %H"`, producing one line per
commit, newest first, each line holding the one-character signature status
(`%G?`) followed by a space and the full 40-hex-digit commit hash (`%H`),
and then searches the output with `re.search(r"(?<=[UG] )[a-fA-F0-9]*", ...)`.
`re.search` returns the leftmost match, i.e. the hex run of the first
(newest) line whose status character is `U` or `G`; status characters
(`G B U X Y R E N`) other than `U`/`G` never satisfy the lookbehind, and a
hash, being hex, never contains `U`, `G` or a space, so the leftmost match
is exactly the hash of the newest commit with status `G` or `U`.
We embed the log output as a list of (status, hash) entries. -/

/-- One line of `git log --pretty="%G? %H"` output: the `%G?` signature
status character and the `%H` commit hash. -/
structure LogEntry where
  status : Char
  sha : String
deriving DecidableEq, Repr

/-- Signature statuses accepted by the lookbehind `(?<=[UG] )`. -/
def isVerifiedStatus (c : Char) : Bool := c == 'G' || c == 'U'

/-- Embeds `get_signed_commit_sha`: the hash of the first (newest) log
entry whose signature status is `G` or `U`, if any. -/
def get_signed_commit_sha (log : List LogEntry) : Option String :=
  (log.find? (fun e => isVerifiedStatus e.status)).map LogEntry.sha

/-! ## `GitLabGPGKeyFetcher.fetch_user_uid` (lines 86-112)

`fetch_user_uid(email)` substitutes `self.user_email` when its argument is
falsy (`None` or `""`), returns `[]` when the result is still falsy, and
otherwise queries `_search_user_ids(term=email)`.  If that returns an empty
list it derives `base_name = email.split("@")[0].split(".")[0]` and calls
`_fetch_user_uid_by_name(base_name)`, which returns `[]` without searching
when `base_name` is empty and otherwise queries
`_search_user_ids(term=base_name)`.  We record the search terms actually
queried alongside the resulting id list. -/

/-- `email.split("@")[0].split(".")[0]`: the part of the email before the
first `@`, truncated at its first `.`. -/
def baseNameOf (email : String) : String :=
  ⟨(email.data.takeWhile (fun c => c != '@')).takeWhile (fun c => c != '.')⟩

/-- Result of one `fetch_user_uid` call: the directory search terms that
were actually queried, in order, and the returned list of user ids. -/
structure UidLookup where
  terms : List String
  ids : List Int
deriving DecidableEq, Repr

/-- Embeds `fetch_user_uid` over an abstract directory search function
(`_search_user_ids`).  `userEmail` is `self.user_email` (always `None` for
the fetcher constructed in `main`); `emailArg` is the method argument. -/
def fetch_user_uid (search : String → List Int) (userEmail : Option String)
    (emailArg : Option String) : UidLookup :=
  let email? : Option String :=
    match emailArg with
    | some s => if s = "" then userEmail else some s
    | none => userEmail
  match email? with
  | none => ⟨[], []⟩
  | some email =>
    if email = "" then ⟨[], []⟩
    else
      let ids := search email
      if ids.isEmpty then
        let base := baseNameOf email
        if base = "" then ⟨[email], []⟩
        else ⟨[email, base], search base⟩
      else ⟨[email], ids⟩

/-! ## `gnupg` import outcome and the classification test of `main`
(lines 296-298) -/

/-- Result of `gpg_instance.import_keys(gpg_key)`: its `returncode` and its
`stderr` diagnostic text. -/
structure ImportResult where
  returncode : Int
  stderr : String
deriving DecidableEq, Repr

/-- The condition of line 298:
`import_result.returncode == 0 and regx_search is None`, where
`regx_search = re.search(r"gpg: no valid OpenPGP data found", import_result.stderr)`. -/
def importOk (r : ImportResult) : Bool :=
  r.returncode == 0 && !(containsSub r.stderr "gpg: no valid OpenPGP data found")

/-! ## `GitCheckVerifiedCommit.create_checkout_dir` (lines 151-160) -/

/-- The possible return values of `create_checkout_dir`: the target path
(returned unchanged on success, or when it was `None`), or the caught
exception returned as the result value. -/
inductive DirResult where
  | path (p : String)
  | exc (e : String)
  | noPath
deriving DecidableEq, Repr

/-- Embeds `create_checkout_dir`: `dir_path` starts as
`self.path_to_checkout_dir`; if that is not `None`, `Path(...).mkdir(...)`
runs and any exception is caught and assigned to `dir_path`; `dir_path` is
returned.  The filesystem effect is abstracted as a fallible `mkdir`. -/
def create_checkout_dir (target : Option String)
    (mkdir : String → Except String Unit) : DirResult :=
  match target with
  | none => DirResult.noPath
  | some p =>
    match mkdir p with
    | Except.ok _ => DirResult.path p
    | Except.error e => DirResult.exc e

/-! ## The `main` loop (lines 258-319)

External services are supplied by an `Env`.  The committer-email list, the
fetch output and the signed-commit log are functions of the current fetch
depth (the amount of history visible after the fetch of that iteration);
the signed-commit log additionally depends on the key material passed to
`import_keys` so far (the process-wide GPG keyring grows with each import;
`get_signed_commit_sha` is re-evaluated after every import).  Every call is
deterministic in these observable inputs. -/

/-- The argument `fetch_git_repo` passes to the git transport
(lines 183-186): `{"depth": depth_val}` on the initial fetch
(`depth_val == INITIAL_GIT_FETCH_DEPTH`), otherwise
`{"deepen": min(GIT_FETCH_DEPTH_LIMIT, depth_val)}`. -/
inductive FetchArg where
  | depth (n : Nat)
  | deepen (n : Nat)
deriving DecidableEq, Repr

/-- The numeric depth value carried by a transport argument. -/
def transportedDepth : FetchArg → Nat
  | FetchArg.depth n => n
  | FetchArg.deepen n => n

/-- Embeds the argument selection of `fetch_git_repo` for a given
`depth_val`. -/
def fetchArgOf (d : Nat) : FetchArg :=
  if d = INITIAL_GIT_FETCH_DEPTH then FetchArg.depth d
  else FetchArg.deepen (min GIT_FETCH_DEPTH_LIMIT d)

/-- One observable external action of the loop, in execution order. -/
inductive Event where
  /-- `fetch_git_repo(depth_val)`: the loop's depth value, the argument
  passed to the transport, and the transport's stderr text. -/
  | fetch (depthVal : Nat) (arg : FetchArg) (out : String)
  /-- `fetch_user_uid(e)`: one directory resolution for email `e`. -/
  | searchUid (email : String)
  /-- `get_gpg_key_by_uid(uid)`. -/
  | keyFetch (uid : Int)
  /-- `gpg_instance.import_keys(key)` while processing `email`. -/
  | keyImport (email : String) (key : String)
  /-- `get_signed_commit_sha(...)` re-scan and its result. -/
  | scan (result : Option String)
  /-- `git.checkout(sha)`. -/
  | checkout (sha : String)
deriving DecidableEq, Repr

/-- The mutable state of `main`'s loop: `gpg_keys_imported`,
`gpg_keys_not_found`, and the key material fed to the GPG keyring so far
(every blob passed to `import_keys`, in order). -/
structure LoopState where
  imported : List String
  notFound : List String
  keyring : List String
deriving DecidableEq, Repr

/-- Python's `sorted(set(l))` for string lists: the ascending sorted list
of the distinct elements of `l` (Python compares strings by code point,
as Lean's `≤` on `String` does). -/
def sortedSet (l : List String) : List String :=
  List.insertionSort (· ≤ ·) l.dedup

/-- The external world as seen by `main`: each service's reply as a
function of its observable inputs. -/
structure Env where
  /-- stderr text of `fetch_git_repo` at a given loop depth value. -/
  fetchOut : Nat → String
  /-- raw committer-email list of `get_commiter_email` (already filtered by
  `committer="suse"`, before the `sorted(set(...))`) once history has been
  fetched at the given depth. -/
  commitEmails : Nat → List String
  /-- `_search_user_ids(term)`. -/
  search : String → List Int
  /-- `get_gpg_key_by_uid(uid)`. -/
  gpgKeyOf : Int → Option String
  /-- `gpg_instance.import_keys(key)`. -/
  importRes : String → ImportResult
  /-- the `git log --pretty="%G? %H"` entries for the scanned ref, given
  the current fetch depth and the key material imported so far. -/
  logAt : Nat → List String → List LogEntry

/-- The user-id list `main` obtains for a committer email e
(line 292; the fetcher is constructed without `user_email`). -/
def uidsOf (env : Env) (e : String) : List Int :=
  (fetch_user_uid env.search none (some e)).ids

/-- Output of one inner loop phase: updated state, the signed commit sha if
one was found (short-circuit), and the trace of events. -/
structure StepOut where
  st : LoopState
  found : Option String
  tr : List Event
deriving DecidableEq, Repr

/-- Embeds the `for uid in unique_ids` loop (lines 293-313) while
processing email `e` at the given depth.  For each uid: fetch its key; if
absent, append `e` to `gpg_keys_not_found` (then `sorted(set(...))`);
otherwise import the key, append `e` to `gpg_keys_imported` exactly when
the line-298 test holds, re-run `get_signed_commit_sha`, and on success
check out the hash and stop everything (in the source: `checkout`,
`unique_ids.clear()`, `emails.clear()`, `break`, which ends both `for`
loops and the `while` loop). -/
def uidLoop (env : Env) (depth : Nat) (e : String) :
    List Int → LoopState → StepOut
  | [], st => ⟨st, none, []⟩
  | uid :: rest, st =>
    match env.gpgKeyOf uid with
    | none =>
      let o := uidLoop env depth e rest
        ⟨st.imported, sortedSet (st.notFound ++ [e]), st.keyring⟩
      ⟨o.st, o.found, Event.keyFetch uid :: o.tr⟩
    | some k =>
      let st' : LoopState :=
        ⟨if importOk (env.importRes k) = true then sortedSet (st.imported ++ [e])
          else st.imported,
         st.notFound, st.keyring ++ [k]⟩
      match get_signed_commit_sha (env.logAt depth (st.keyring ++ [k])) with
      | some h =>
        ⟨st', some h,
          [Event.keyFetch uid, Event.keyImport e k, Event.scan (some h),
           Event.checkout h]⟩
      | none =>
        let o := uidLoop env depth e rest st'
        ⟨o.st, o.found,
          Event.keyFetch uid :: Event.keyImport e k :: Event.scan none :: o.tr⟩

/-- Embeds the `for e in emails` loop (lines 290-318): an email already in
`gpg_keys_imported` or `gpg_keys_not_found` is only logged (lines 314-318);
otherwise it is resolved with `fetch_user_uid` and its uids are processed.
A found commit stops the iteration (the source clears `emails`). -/
def emailLoop (env : Env) (depth : Nat) :
    List String → LoopState → StepOut
  | [], st => ⟨st, none, []⟩
  | e :: rest, st =>
    if e ∈ st.imported ∨ e ∈ st.notFound then
      emailLoop env depth rest st
    else
      let o := uidLoop env depth e (uidsOf env e) st
      match o.found with
      | some h => ⟨o.st, some h, Event.searchUid e :: o.tr⟩
      | none =>
        let o2 := emailLoop env depth rest o.st
        ⟨o2.st, o2.found, Event.searchUid e :: (o.tr ++ o2.tr)⟩

/-- How a run of `main` ends. -/
inductive RunResult where
  /-- the loop checked out `sha` and `main` returned. -/
  | checkedOut (sha : String)
  /-- `sys.exit(msg)`: process terminates with exit status 1. -/
  | fatalExit (msg : String)
  /-- the `break` of lines 285-287: `main` returns `None` without having
  checked anything out; the process exits with status 0. -/
  | noCheckoutReturn
  /-- artifact of the fuel encoding; never reached from `runMain` with
  sufficient fuel. -/
  | outOfFuel
deriving DecidableEq, Repr

/-- Output of the whole loop: result, final state, event trace. -/
structure MainOut where
  res : RunResult
  st : LoopState
  tr : List Event
deriving DecidableEq, Repr

/-- Embeds the `while signed_commit_sha is None` loop (lines 278-319).
Each iteration: fetch at the current depth; `sys.exit` if the output
matches `FETCH_NO_NEW_COMMITS_REGEX`; otherwise `break` (returning
normally) if `git_fetch_depth >= GIT_FETCH_DEPTH_LIMIT`; otherwise
enumerate `sorted(set(...))` committer emails, process them, and double the
depth.  `fuel` bounds the number of iterations; the depth doubling reaches
the limit within 31 iterations from the initial depth 2. -/
def mainLoop (env : Env) : Nat → Nat → LoopState → MainOut
  | 0, _, st => ⟨RunResult.outOfFuel, st, []⟩
  | fuel + 1, depth, st =>
    let out := env.fetchOut depth
    let fe := Event.fetch depth (fetchArgOf depth) out
    if matchesNoNewCommits out = true then
      ⟨RunResult.fatalExit "No new commits found on server", st, [fe]⟩
    else if GIT_FETCH_DEPTH_LIMIT ≤ depth then
      ⟨RunResult.noCheckoutReturn, st, [fe]⟩
    else
      let o := emailLoop env depth (sortedSet (env.commitEmails depth)) st
      match o.found with
      | some h => ⟨RunResult.checkedOut h, o.st, fe :: o.tr⟩
      | none =>
        let m := mainLoop env fuel (depth * 2) o.st
        ⟨m.res, m.st, fe :: (o.tr ++ m.tr)⟩

/-- The loop's initial state: both classification lists empty, nothing yet
imported into the keyring. -/
def initialState : LoopState := ⟨[], [], []⟩

/-- A run of `main`'s loop from its initial configuration
(`git_fetch_depth = INITIAL_GIT_FETCH_DEPTH`, empty classification sets). -/
def runMain (env : Env) (fuel : Nat) : MainOut :=
  mainLoop env fuel INITIAL_GIT_FETCH_DEPTH initialState

/-- Embeds `main` lines 268-270: `create_checkout_dir` is called and its
return value is discarded before the loop runs. -/
def mainWithDir (mkdir : String → Except String Unit) (target : Option String)
    (env : Env) (fuel : Nat) : MainOut :=
  let _dirResult := create_checkout_dir target mkdir
  runMain env fuel

/-! ## Trace observables -/

/-- Is this event a directory resolution for email `e`? -/
def isSearchOf (e : String) : Event → Bool
  | Event.searchUid e' => e' == e
  | _ => false

/-- Is this event a key-import attempt for email `e`? -/
def isImportOf (e : String) : Event → Bool
  | Event.keyImport e' _ => e' == e
  | _ => false

/-- Number of directory resolutions performed for email `e`. -/
def countSearch (e : String) (tr : List Event) : Nat :=
  tr.countP (isSearchOf e)

/-- Number of key-import attempts performed for email `e`. -/
def countImport (e : String) (tr : List Event) : Nat :=
  tr.countP (isImportOf e)

/-- The loop depth values of the fetch events of a trace, in order. -/
def fetchDepths (tr : List Event) : List Nat :=
  tr.filterMap (fun ev => match ev with
    | Event.fetch d _ _ => some d
    | _ => none)

/-- `doublingFrom d l`: the list reads `d, d*2, d*4, ...`. -/
def doublingFrom : Nat → List Nat → Prop
  | _, [] => True
  | d, a :: l => a = d ∧ doublingFrom (d * 2) l

/-- A trace segment containing no successful scan and no checkout. -/
def noStopTr (tr : List Event) : Prop :=
  (∀ r, Event.scan r ∈ tr → r = none) ∧ (∀ h, Event.checkout h ∉ tr)

/-- Checks that the first successful scan of a trace, if any, is followed
by exactly the checkout of the found hash and nothing else. -/
def stopsAtFound : List Event → Bool
  | [] => true
  | Event.scan (some h) :: rest => rest == [Event.checkout h]
  | _ :: rest => stopsAtFound rest

/-- Does any uid of this list classify its email (key absent, or key
present and importing it satisfies the line-298 test)?  An email whose
processing runs to completion lands in `gpg_keys_not_found` or
`gpg_keys_imported` exactly when this holds of its uid list. -/
def classifies (env : Env) (uids : List Int) : Bool :=
  uids.any (fun u =>
    match env.gpgKeyOf u with
    | none => true
    | some k => importOk (env.importRes k))

/-! ## Concrete environments used by witnesses and counterexamples -/

/-- Import diagnostics of a key that imports successfully. -/
def okImport : ImportResult := ⟨0, "gpg: Total number processed: 1"⟩

/-- Import diagnostics of unusable key material. -/
def badImport : ImportResult := ⟨2, "gpg: no valid OpenPGP data found"⟩

/-- One committer email resolving to two uids, both with importable keys;
no commit ever verifies; the second fetch reports no new commits. -/
def envTwoKeys : Env :=
  ⟨fun d => if d = 2 then "ok" else "remote: Total 0 (delta 0), pack-reused 0",
   fun _ => ["alice@suse.com"],
   fun t => if t = "alice@suse.com" then [1, 2] else [],
   fun u => if u = 1 then some "KEY1" else if u = 2 then some "KEY2" else none,
   fun _ => okImport,
   fun _ _ => []⟩

/-- One committer email with a single uid whose key material is unusable;
no commit ever verifies; the third fetch reports no new commits. -/
def envBadKey : Env :=
  ⟨fun d => if d = 2 ∨ d = 4 then "ok" else "remote: Total 0 (delta 0)",
   fun _ => ["bob@suse.com"],
   fun t => if t = "bob@suse.com" then [5] else [],
   fun u => if u = 5 then some "BADKEY" else none,
   fun _ => badImport,
   fun _ _ => []⟩

/-- One committer email with a single uid that has no key on record;
no commit ever verifies; the third fetch reports no new commits. -/
def envNoKey : Env :=
  ⟨fun d => if d = 2 ∨ d = 4 then "ok" else "remote: Total 0 (delta 0)",
   fun _ => ["bob@suse.com"],
   fun t => if t = "bob@suse.com" then [5] else [],
   fun _ => none,
   fun _ => okImport,
   fun _ _ => []⟩

/-- Nothing is ever found: no email, no match, no verifying commit; the
loop can only terminate by exhausting the depth cap. -/
def envBarren : Env :=
  ⟨fun _ => "done", fun _ => [], fun _ => [], fun _ => none,
   fun _ => okImport, fun _ _ => []⟩

/-- The very first fetch reports that zero objects were transferred. -/
def envTotalZero : Env :=
  ⟨fun _ => "remote: Enumerating objects: 0, done.\nremote: Total 0 (delta 0), reused 0",
   fun _ => [], fun _ => [], fun _ => none, fun _ => okImport, fun _ _ => []⟩

/-- One committer email whose key imports and makes a commit verify at
once: the log shows a `G` entry as soon as `GOODKEY` is in the keyring. -/
def envGoodKey : Env :=
  ⟨fun _ => "ok",
   fun _ => ["carol@suse.com"],
   fun t => if t = "carol@suse.com" then [9] else [],
   fun u => if u = 9 then some "GOODKEY" else none,
   fun _ => okImport,
   fun _ kr => if "GOODKEY" ∈ kr then [⟨'G', "cafe1234cafe1234cafe1234cafe1234cafe1234"⟩] else []⟩

/-- A sample signed-commit log: the newest entry is unsigned (`N`), the
second is verified (`G`), an older one has a bad signature (`B`). -/
def demoLog : List LogEntry :=
  [⟨'N', "aaaa000011112222333344445555666677778888"⟩,
   ⟨'G', "bbbb000011112222333344445555666677778888"⟩,
   ⟨'B', "cccc000011112222333344445555666677778888"⟩]

/-- Directory that only answers the empty search term (as GitLab does:
an empty search lists every user). -/
def searchEmptyTerm : String → List Int := fun t => if t = "" then [7] else []

/-- Directory that knows the name fragment `jane` but not the full email. -/
def searchJane : String → List Int := fun t => if t = "jane" then [5] else []

/-! ## Basic lemmas -/

theorem mem_sortedSet {a : String} {l : List String} : a ∈ sortedSet l ↔ a ∈ l := by
  unfold sortedSet
  rw [(List.perm_insertionSort _ _).mem_iff, List.mem_dedup]

theorem nodup_sortedSet (l : List String) : (sortedSet l).Nodup := by
  unfold sortedSet
  rw [(List.perm_insertionSort _ _).nodup_iff]
  exact l.nodup_dedup

theorem gscs_cons_pos {e : LogEntry} (l : List LogEntry)
    (he : isVerifiedStatus e.status = true) :
    get_signed_commit_sha (e :: l) = some e.sha := by
  unfold get_signed_commit_sha
  simp only [List.find?, he]
  rfl

theorem gscs_cons_neg {e : LogEntry} (l : List LogEntry)
    (he : isVerifiedStatus e.status = false) :
    get_signed_commit_sha (e :: l) = get_signed_commit_sha l := by
  unfold get_signed_commit_sha
  simp only [List.find?, he]

theorem gscs_first (log : List LogEntry) (i : Nat) (hi : i < log.length)
    (hv : isVerifiedStatus (log.get ⟨i, hi⟩).status = true)
    (hmin : ∀ j (hj : j < log.length), j < i →
      isVerifiedStatus (log.get ⟨j, hj⟩).status = false) :
    get_signed_commit_sha log = some (log.get ⟨i, hi⟩).sha := by
  induction log generalizing i with
  | nil => exact absurd hi (Nat.not_lt_zero i)
  | cons e l ih =>
    cases i with
    | zero => exact gscs_cons_pos l hv
    | succ i =>
      have h0 : isVerifiedStatus e.status = false :=
        hmin 0 (Nat.succ_pos _) (Nat.succ_pos _)
      have hi' : i < l.length := Nat.lt_of_succ_lt_succ hi
      rw [gscs_cons_neg l h0]
      exact ih i hi' hv (fun j hj hji =>
        hmin (j + 1) (Nat.succ_lt_succ hj) (Nat.succ_lt_succ hji))

theorem gscs_sound (log : List LogEntry) (h : String)
    (hs : get_signed_commit_sha log = some h) :
    ∃ e, e ∈ log ∧ isVerifiedStatus e.status = true ∧ e.sha = h := by
  induction log with
  | nil => simp [get_signed_commit_sha, List.find?] at hs
  | cons e l ih =>
    cases he : isVerifiedStatus e.status with
    | true =>
      rw [gscs_cons_pos l he] at hs
      exact ⟨e, List.mem_cons_self e l, he, by simpa using hs⟩
    | false =>
      rw [gscs_cons_neg l he] at hs
      obtain ⟨x, hx, hxv, hxs⟩ := ih hs
      exact ⟨x, List.mem_cons_of_mem e hx, hxv, hxs⟩

/-! ## `uidLoop` lemmas -/

theorem uidLoop_mono_imported (env : Env) (depth : Nat) (e : String)
    (uids : List Int) (st : LoopState) {a : String} (ha : a ∈ st.imported) :
    a ∈ (uidLoop env depth e uids st).st.imported := by
  induction uids generalizing st with
  | nil => simpa [uidLoop] using ha
  | cons uid rest ih =>
    simp only [uidLoop]
    split
    · exact ih _ ha
    · rename_i k hk
      split
      · by_cases hok : importOk (env.importRes k) = true <;>
          simp [hok, mem_sortedSet, ha]
      · refine ih _ ?_
        by_cases hok : importOk (env.importRes k) = true <;>
          simp [hok, mem_sortedSet, ha]

theorem uidLoop_mono_notFound (env : Env) (depth : Nat) (e : String)
    (uids : List Int) (st : LoopState) {a : String} (ha : a ∈ st.notFound) :
    a ∈ (uidLoop env depth e uids st).st.notFound := by
  induction uids generalizing st with
  | nil => simpa [uidLoop] using ha
  | cons uid rest ih =>
    simp only [uidLoop]
    split
    · refine ih _ ?_
      simp [mem_sortedSet, ha]
    · rename_i k hk
      split
      · simpa using ha
      · exact ih _ ha

theorem uidLoop_no_search (env : Env) (depth : Nat) (e a : String)
    (uids : List Int) (st : LoopState) :
    Event.searchUid a ∉ (uidLoop env depth e uids st).tr := by
  induction uids generalizing st with
  | nil => simp [uidLoop]
  | cons uid rest ih =>
    simp only [uidLoop]
    split
    · simpa using ih _
    · rename_i k hk
      split
      · simp
      · simpa using ih _

theorem uidLoop_no_fetch (env : Env) (depth : Nat) (e : String)
    (uids : List Int) (st : LoopState) (d : Nat) (ar : FetchArg) (o : String) :
    Event.fetch d ar o ∉ (uidLoop env depth e uids st).tr := by
  induction uids generalizing st with
  | nil => simp [uidLoop]
  | cons uid rest ih =>
    simp only [uidLoop]
    split
    · simpa using ih _
    · rename_i k hk
      split
      · simp
      · simpa using ih _

theorem uidLoop_imported_sub (env : Env) (depth : Nat) (e : String)
    (uids : List Int) (st : LoopState) (a : String)
    (ha : a ∈ (uidLoop env depth e uids st).st.imported) :
    a ∈ st.imported ∨ (a = e ∧ ∃ k, Event.keyImport e k ∈ (uidLoop env depth e uids st).tr ∧
      importOk (env.importRes k) = true) := by
  induction uids generalizing st with
  | nil => simp [uidLoop] at ha ⊢; exact ha
  | cons uid rest ih =>
    simp only [uidLoop] at ha ⊢
    revert ha
    split
    · intro ha
      rcases ih _ ha with h | ⟨rfl, k', hk', hok'⟩
      · exact Or.inl h
      · exact Or.inr ⟨rfl, k', by simp [hk'], hok'⟩
    · rename_i k hk
      split
      · intro ha
        by_cases hok : importOk (env.importRes k) = true
        · simp only [hok, if_true] at ha
          rcases List.mem_append.mp (mem_sortedSet.mp ha) with h | h
          · exact Or.inl h
          · exact Or.inr ⟨by simpa using h, k, by simp, hok⟩
        · simp only [hok, if_false] at ha
          exact Or.inl ha
      · intro ha
        rcases ih _ ha with h | ⟨rfl, k', hk', hok'⟩
        · by_cases hok : importOk (env.importRes k) = true
          · simp only [hok, if_true] at h
            rcases List.mem_append.mp (mem_sortedSet.mp h) with h2 | h2
            · exact Or.inl h2
            · exact Or.inr ⟨by simpa using h2, k, by simp, hok⟩
          · simp only [hok, if_false] at h
            exact Or.inl h
        · exact Or.inr ⟨rfl, k', by simp [hk'], hok'⟩

theorem uidLoop_imported_super (env : Env) (depth : Nat) (e : String)
    (uids : List Int) (st : LoopState) (a k : String)
    (hev : Event.keyImport a k ∈ (uidLoop env depth e uids st).tr)
    (hok : importOk (env.importRes k) = true) :
    a ∈ (uidLoop env depth e uids st).st.imported := by
  induction uids generalizing st with
  | nil => simp [uidLoop] at hev
  | cons uid rest ih =>
    simp only [uidLoop] at hev ⊢
    revert hev
    split
    · intro hev
      exact ih _ (by simpa using hev)
    · rename_i k' hk'
      split
      · intro hev
        simp only [List.mem_cons, List.not_mem_nil, or_false] at hev
        rcases hev with h | h | h | h
        · exact absurd h (by simp)
        · obtain ⟨rfl, rfl⟩ := Event.keyImport.inj h
          simp [hok, mem_sortedSet]
        · exact absurd h (by simp)
        · exact absurd h (by simp)
      · intro hev
        simp only [List.mem_cons] at hev
        rcases hev with h | h | h | h
        · exact absurd h (by simp)
        · obtain ⟨rfl, rfl⟩ := Event.keyImport.inj h
          refine uidLoop_mono_imported env depth a rest _ ?_
          simp [hok, mem_sortedSet]
        · exact absurd h (by simp)
        · exact ih _ h

theorem uidLoop_notFound_sub (env : Env) (depth : Nat) (e : String)
    (uids : List Int) (st : LoopState) (a : String)
    (ha : a ∈ (uidLoop env depth e uids st).st.notFound) :
    a ∈ st.notFound ∨ (a = e ∧ ∃ uid ∈ uids, env.gpgKeyOf uid = none) := by
  induction uids generalizing st with
  | nil => simp [uidLoop] at ha ⊢; exact ha
  | cons uid rest ih =>
    simp only [uidLoop] at ha ⊢
    revert ha
    split
    · rename_i hk
      intro ha
      rcases ih _ ha with h | ⟨rfl, u, hu, hku⟩
      · rcases List.mem_append.mp (mem_sortedSet.mp h) with h2 | h2
        · exact Or.inl h2
        · exact Or.inr ⟨by simpa using h2, uid, by simp, hk⟩
      · exact Or.inr ⟨rfl, u, by simp [hu], hku⟩
    · rename_i k hk
      split
      · intro ha
        exact Or.inl ha
      · intro ha
        rcases ih _ ha with h | ⟨rfl, u, hu, hku⟩
        · exact Or.inl h
        · exact Or.inr ⟨rfl, u, by simp [hu], hku⟩

theorem uidLoop_import_count_other (env : Env) (depth : Nat) (e : String)
    (uids : List Int) (st : LoopState) (a : String) (hne : a ≠ e) :
    countImport a (uidLoop env depth e uids st).tr = 0 := by
  induction uids generalizing st with
  | nil => simp [uidLoop, countImport]
  | cons uid rest ih =>
    simp only [uidLoop]
    split
    · simpa [countImport, List.countP_cons, isImportOf] using ih _
    · rename_i k hk
      split
      · simp [countImport, List.countP_cons, isImportOf, Ne.symm hne]
      · simpa [countImport, List.countP_cons, isImportOf, Ne.symm hne] using ih _

theorem uidLoop_import_count_self (env : Env) (depth : Nat) (e : String)
    (uids : List Int) (st : LoopState) :
    countImport e (uidLoop env depth e uids st).tr ≤ uids.length := by
  induction uids generalizing st with
  | nil => simp [uidLoop, countImport]
  | cons uid rest ih =>
    simp only [uidLoop]
    split
    · have h := ih (⟨st.imported, sortedSet (st.notFound ++ [e]), st.keyring⟩ : LoopState)
      simp only [countImport] at h ⊢
      simp [List.countP_cons, isImportOf]
      omega
    · rename_i k hk
      split
      · simp [countImport, List.countP_cons, isImportOf]
      · have h := ih (⟨if importOk (env.importRes k) = true then
            sortedSet (st.imported ++ [e]) else st.imported,
          st.notFound, st.keyring ++ [k]⟩ : LoopState)
        simp only [countImport] at h ⊢
        simp [List.countP_cons, isImportOf]
        omega

theorem uidLoop_found_none_noStop (env : Env) (depth : Nat) (e : String)
    (uids : List Int) (st : LoopState)
    (hf : (uidLoop env depth e uids st).found = none) :
    noStopTr (uidLoop env depth e uids st).tr := by
  induction uids generalizing st with
  | nil => exact ⟨by simp [uidLoop], by simp [uidLoop]⟩
  | cons uid rest ih =>
    simp only [uidLoop] at hf ⊢
    revert hf
    split
    · intro hf
      obtain ⟨h1, h2⟩ := ih _ hf
      refine ⟨fun r hr => ?_, fun h hh => ?_⟩
      · rcases List.mem_cons.mp hr with h | h
        · exact absurd h (by simp)
        · exact h1 r h
      · rcases List.mem_cons.mp hh with h3 | h3
        · exact absurd h3 (by simp)
        · exact h2 h h3
    · rename_i k hk
      split
      · intro hf
        simp at hf
      · intro hf
        obtain ⟨h1, h2⟩ := ih _ hf
        refine ⟨fun r hr => ?_, fun h hh => ?_⟩
        · rcases List.mem_cons.mp hr with h | h
          · exact absurd h (by simp)
          · rcases List.mem_cons.mp h with h | h
            · exact absurd h (by simp)
            · rcases List.mem_cons.mp h with h | h
              · exact Event.scan.inj h
              · exact h1 r h
        · rcases List.mem_cons.mp hh with h3 | h3
          · exact absurd h3 (by simp)
          · rcases List.mem_cons.mp h3 with h4 | h4
            · exact absurd h4 (by simp)
            · rcases List.mem_cons.mp h4 with h5 | h5
              · exact absurd h5 (by simp)
              · exact h2 h h5

theorem noStopTr_cons {ev : Event} {tr : List Event}
    (hev : (∀ r, ev ≠ Event.scan r ∨ r = none) ∧ ∀ h, ev ≠ Event.checkout h)
    (htr : noStopTr tr) : noStopTr (ev :: tr) := by
  refine ⟨fun r hr => ?_, fun h hh => ?_⟩
  · rcases List.mem_cons.mp hr with h | h
    · rcases hev.1 r with h2 | h2
      · exact absurd h.symm h2
      · exact h2
    · exact htr.1 r h
  · rcases List.mem_cons.mp hh with h3 | h3
    · exact hev.2 h h3.symm
    · exact htr.2 h h3

theorem uidLoop_found_some_struct (env : Env) (depth : Nat) (e : String)
    (uids : List Int) (st : LoopState) (h : String)
    (hf : (uidLoop env depth e uids st).found = some h) :
    ∃ pre, (uidLoop env depth e uids st).tr =
        pre ++ [Event.scan (some h), Event.checkout h] ∧ noStopTr pre := by
  induction uids generalizing st with
  | nil => simp [uidLoop] at hf
  | cons uid rest ih =>
    simp only [uidLoop] at hf ⊢
    revert hf
    split
    · intro hf
      obtain ⟨pre, hpre, hns⟩ := ih _ hf
      exact ⟨Event.keyFetch uid :: pre, by simp [hpre],
        noStopTr_cons ⟨fun r => Or.inl (by simp), fun h2 => by simp⟩ hns⟩
    · rename_i k hk
      split
      · rename_i h' hsc
        intro hf
        have hh : h' = h := by simpa using hf
        subst hh
        refine ⟨[Event.keyFetch uid, Event.keyImport e k], by simp, ?_⟩
        refine noStopTr_cons ⟨fun r => Or.inl (by simp), fun h2 => by simp⟩ ?_
        refine noStopTr_cons ⟨fun r => Or.inl (by simp), fun h2 => by simp⟩ ?_
        exact ⟨by simp, by simp⟩
      · intro hf
        obtain ⟨pre, hpre, hns⟩ := ih _ hf
        refine ⟨Event.keyFetch uid :: Event.keyImport e k :: Event.scan none :: pre,
          by simp [hpre], ?_⟩
        refine noStopTr_cons ⟨fun r => Or.inl (by simp), fun h2 => by simp⟩ ?_
        refine noStopTr_cons ⟨fun r => Or.inl (by simp), fun h2 => by simp⟩ ?_
        refine noStopTr_cons ⟨fun r => ?_, fun h2 => by simp⟩ hns
        by_cases hr : r = none
        · exact Or.inr hr
        · exact Or.inl (by simp [Ne.symm hr])

theorem uidLoop_checkout_scan (env : Env) (depth : Nat) (e : String)
    (uids : List Int) (st : LoopState) (h : String)
    (hc : Event.checkout h ∈ (uidLoop env depth e uids st).tr) :
    ∃ kr, get_signed_commit_sha (env.logAt depth kr) = some h := by
  induction uids generalizing st with
  | nil => simp [uidLoop] at hc
  | cons uid rest ih =>
    simp only [uidLoop] at hc
    revert hc
    split
    · intro hc
      rcases List.mem_cons.mp hc with h2 | h2
      · exact absurd h2 (by simp)
      · exact ih _ h2
    · rename_i k hk
      split
      · rename_i h' hsc
        intro hc
        simp only [List.mem_cons, List.not_mem_nil, or_false] at hc
        rcases hc with h2 | h2 | h2 | h2
        · exact absurd h2 (by simp)
        · exact absurd h2 (by simp)
        · exact absurd h2 (by simp)
        · exact ⟨st.keyring ++ [k], by rw [hsc, Event.checkout.inj h2]⟩
      · intro hc
        rcases List.mem_cons.mp hc with h2 | h2
        · exact absurd h2 (by simp)
        · rcases List.mem_cons.mp h2 with h3 | h3
          · exact absurd h3 (by simp)
          · rcases List.mem_cons.mp h3 with h4 | h4
            · exact absurd h4 (by simp)
            · exact ih _ h4

theorem uidLoop_noclassify (env : Env) (depth : Nat) (e : String)
    (uids : List Int) (st : LoopState)
    (hcl : classifies env uids = false) :
    (uidLoop env depth e uids st).st.imported = st.imported ∧
      (uidLoop env depth e uids st).st.notFound = st.notFound := by
  induction uids generalizing st with
  | nil => simp [uidLoop]
  | cons uid rest ih =>
    rw [classifies, List.any_cons, Bool.or_eq_false_iff] at hcl
    obtain ⟨hu, hrest⟩ := hcl
    simp only [uidLoop]
    split
    · rename_i hk
      rw [hk] at hu
      simp at hu
    · rename_i k hk
      rw [hk] at hu
      have hok : importOk (env.importRes k) = false := hu
      split
      · simp [hok]
      · have := ih (⟨if importOk (env.importRes k) = true then
            sortedSet (st.imported ++ [e]) else st.imported,
          st.notFound, st.keyring ++ [k]⟩ : LoopState) hrest
        simpa [hok] using this

theorem uidLoop_classify_complete (env : Env) (depth : Nat) (e : String)
    (uids : List Int) (st : LoopState)
    (hf : (uidLoop env depth e uids st).found = none)
    (hcl : classifies env uids = true) :
    e ∈ (uidLoop env depth e uids st).st.imported ∨
      e ∈ (uidLoop env depth e uids st).st.notFound := by
  induction uids generalizing st with
  | nil => simp [classifies] at hcl
  | cons uid rest ih =>
    rw [classifies, List.any_cons, Bool.or_eq_true] at hcl
    simp only [uidLoop] at hf ⊢
    revert hf
    split
    · rename_i hk
      intro hf
      refine Or.inr (uidLoop_mono_notFound env depth e rest _ ?_)
      simp [mem_sortedSet]
    · rename_i k hk
      rw [hk] at hcl
      split
      · intro hf
        simp at hf
      · intro hf
        rcases hcl with hok | hrest
        · have hok' : importOk (env.importRes k) = true := by simpa using hok
          refine Or.inl (uidLoop_mono_imported env depth e rest _ ?_)
          simp [hok', mem_sortedSet]
        · exact ih _ hf hrest

/-! ## `emailLoop` lemmas -/

theorem isSearchOf_iff {a : String} {ev : Event} :
    isSearchOf a ev = true ↔ ev = Event.searchUid a := by
  cases ev <;> simp [isSearchOf]

theorem isImportOf_iff {a : String} {ev : Event} :
    isImportOf a ev = true ↔ ∃ k, ev = Event.keyImport a k := by
  cases ev <;> simp [isImportOf]

theorem countSearch_eq_zero {a : String} {tr : List Event} :
    countSearch a tr = 0 ↔ Event.searchUid a ∉ tr := by
  rw [countSearch, List.countP_eq_zero]
  constructor
  · intro h hmem
    exact h _ hmem (isSearchOf_iff.mpr rfl)
  · intro h ev hev hp
    exact h (isSearchOf_iff.mp hp ▸ hev)

theorem countImport_eq_zero {a : String} {tr : List Event} :
    countImport a tr = 0 ↔ ∀ k, Event.keyImport a k ∉ tr := by
  rw [countImport, List.countP_eq_zero]
  constructor
  · intro h k hmem
    exact h _ hmem (isImportOf_iff.mpr ⟨k, rfl⟩)
  · intro h ev hev hp
    obtain ⟨k, rfl⟩ := isImportOf_iff.mp hp
    exact h k hev

theorem emailLoop_mono_imported (env : Env) (depth : Nat)
    (emails : List String) (st : LoopState) {a : String} (ha : a ∈ st.imported) :
    a ∈ (emailLoop env depth emails st).st.imported := by
  induction emails generalizing st with
  | nil => simpa [emailLoop] using ha
  | cons e rest ih =>
    simp only [emailLoop]
    split
    · exact ih _ ha
    · split
      · exact uidLoop_mono_imported env depth e _ st ha
      · exact ih _ (uidLoop_mono_imported env depth e _ st ha)

theorem emailLoop_mono_notFound (env : Env) (depth : Nat)
    (emails : List String) (st : LoopState) {a : String} (ha : a ∈ st.notFound) :
    a ∈ (emailLoop env depth emails st).st.notFound := by
  induction emails generalizing st with
  | nil => simpa [emailLoop] using ha
  | cons e rest ih =>
    simp only [emailLoop]
    split
    · exact ih _ ha
    · split
      · exact uidLoop_mono_notFound env depth e _ st ha
      · exact ih _ (uidLoop_mono_notFound env depth e _ st ha)

theorem emailLoop_no_fetch (env : Env) (depth : Nat)
    (emails : List String) (st : LoopState) (d : Nat) (ar : FetchArg) (o : String) :
    Event.fetch d ar o ∉ (emailLoop env depth emails st).tr := by
  induction emails generalizing st with
  | nil => simp [emailLoop]
  | cons e rest ih =>
    simp only [emailLoop]
    split
    · exact ih _
    · split
      · intro hmem
        rcases List.mem_cons.mp hmem with h | h
        · exact absurd h (by simp)
        · exact uidLoop_no_fetch env depth e _ st d ar o h
      · intro hmem
        rcases List.mem_cons.mp hmem with h | h
        · exact absurd h (by simp)
        · rcases List.mem_append.mp h with h2 | h2
          · exact uidLoop_no_fetch env depth e _ st d ar o h2
          · exact ih _ h2

theorem emailLoop_search_mem (env : Env) (depth : Nat)
    (emails : List String) (st : LoopState) {a : String}
    (hmem : Event.searchUid a ∈ (emailLoop env depth emails st).tr) :
    a ∈ emails := by
  induction emails generalizing st with
  | nil => simp [emailLoop] at hmem
  | cons e rest ih =>
    simp only [emailLoop] at hmem
    revert hmem
    split
    · intro hmem
      exact List.mem_cons_of_mem e (ih _ hmem)
    · split
      · intro hmem
        rcases List.mem_cons.mp hmem with h | h
        · simp [Event.searchUid.inj h]
        · exact absurd h (uidLoop_no_search env depth e a _ st)
      · intro hmem
        rcases List.mem_cons.mp hmem with h | h
        · simp [Event.searchUid.inj h]
        · rcases List.mem_append.mp h with h2 | h2
          · exact absurd h2 (uidLoop_no_search env depth e a _ st)
          · exact List.mem_cons_of_mem e (ih _ h2)

theorem emailLoop_guard_no_search (env : Env) (depth : Nat)
    (emails : List String) (st : LoopState) {a : String}
    (ha : a ∈ st.imported ∨ a ∈ st.notFound) :
    Event.searchUid a ∉ (emailLoop env depth emails st).tr := by
  induction emails generalizing st with
  | nil => simp [emailLoop]
  | cons e rest ih =>
    simp only [emailLoop]
    split
    · exact ih _ ha
    · rename_i hcl
      have hne : e ≠ a := by
        rintro rfl
        exact hcl ha
      split
      · intro hmem
        rcases List.mem_cons.mp hmem with h | h
        · exact hne (Event.searchUid.inj h).symm
        · exact uidLoop_no_search env depth e a _ st h
      · intro hmem
        rcases List.mem_cons.mp hmem with h | h
        · exact hne (Event.searchUid.inj h).symm
        · rcases List.mem_append.mp h with h2 | h2
          · exact uidLoop_no_search env depth e a _ st h2
          · refine ih _ ?_ h2
            rcases ha with h3 | h3
            · exact Or.inl (uidLoop_mono_imported env depth e _ st h3)
            · exact Or.inr (uidLoop_mono_notFound env depth e _ st h3)

theorem emailLoop_search_le_one (env : Env) (depth : Nat)
    (emails : List String) (st : LoopState) (a : String) :
    emails.Nodup → countSearch a (emailLoop env depth emails st).tr ≤ 1 := by
  induction emails generalizing st with
  | nil => intro _; simp [emailLoop, countSearch]
  | cons e rest ih =>
    intro hnd
    obtain ⟨hnotin, hnd'⟩ := List.nodup_cons.mp hnd
    simp only [emailLoop]
    split
    · exact ih _ hnd'
    · split
      · have h0 : countSearch a (uidLoop env depth e (uidsOf env e) st).tr = 0 :=
          countSearch_eq_zero.mpr (uidLoop_no_search env depth e a _ st)
        simp only [countSearch, List.countP_cons] at h0 ⊢
        rw [h0]
        split <;> simp
      · by_cases hea : e = a
        · subst hea
          have h0 : countSearch e (uidLoop env depth e (uidsOf env e) st).tr = 0 :=
            countSearch_eq_zero.mpr (uidLoop_no_search env depth e e _ st)
          have h2 : countSearch e (emailLoop env depth rest
              (uidLoop env depth e (uidsOf env e) st).st).tr = 0 := by
            rw [countSearch_eq_zero]
            intro hmem
            exact hnotin (emailLoop_search_mem env depth rest _ hmem)
          simp only [countSearch, List.countP_cons, List.countP_append] at h0 h2 ⊢
          rw [h0, h2]
          simp [isSearchOf]
        · have h2 := ih (uidLoop env depth e (uidsOf env e) st).st hnd'
          have h0 : countSearch a (uidLoop env depth e (uidsOf env e) st).tr = 0 :=
            countSearch_eq_zero.mpr (uidLoop_no_search env depth e a _ st)
          simp only [countSearch, List.countP_cons, List.countP_append] at h0 h2 ⊢
          rw [h0]
          have hif : isSearchOf a (Event.searchUid e) = false := by
            simp [isSearchOf, hea]
          rw [hif]
          simpa using h2

theorem emailLoop_import_no_search (env : Env) (depth : Nat)
    (emails : List String) (st : LoopState) (a : String)
    (hns : Event.searchUid a ∉ (emailLoop env depth emails st).tr) :
    countImport a (emailLoop env depth emails st).tr = 0 := by
  induction emails generalizing st with
  | nil => simp [emailLoop, countImport]
  | cons e rest ih =>
    simp only [emailLoop] at hns ⊢
    revert hns
    split
    · intro hns
      exact ih _ hns
    · split
      · intro hns
        have hea : a ≠ e := by
          rintro rfl
          exact hns (List.mem_cons_self _ _)
        have h0 := uidLoop_import_count_other env depth e (uidsOf env e) st a hea
        simp only [countImport, List.countP_cons] at h0 ⊢
        rw [h0]
        simp [isImportOf]
      · intro hns
        have hea : a ≠ e := by
          rintro rfl
          exact hns (List.mem_cons_self _ _)
        have hns2 : Event.searchUid a ∉ (emailLoop env depth rest
            (uidLoop env depth e (uidsOf env e) st).st).tr := by
          intro hmem
          exact hns (List.mem_cons_of_mem _ (List.mem_append.mpr (Or.inr hmem)))
        have h0 := uidLoop_import_count_other env depth e (uidsOf env e) st a hea
        have h2 := ih _ hns2
        simp only [countImport, List.countP_cons, List.countP_append] at h0 h2 ⊢
        rw [h0, h2]
        simp [isImportOf]

theorem emailLoop_import_le (env : Env) (depth : Nat)
    (emails : List String) (st : LoopState) (a : String) :
    emails.Nodup → countImport a (emailLoop env depth emails st).tr ≤
      (uidsOf env a).length := by
  induction emails generalizing st with
  | nil => intro _; simp [emailLoop, countImport]
  | cons e rest ih =>
    intro hnd
    obtain ⟨hnotin, hnd'⟩ := List.nodup_cons.mp hnd
    simp only [emailLoop]
    split
    · exact ih _ hnd'
    · split
      · by_cases hea : a = e
        · subst hea
          have h1 := uidLoop_import_count_self env depth a (uidsOf env a) st
          simp only [countImport, List.countP_cons] at h1 ⊢
          simp [isImportOf]
          omega
        · have h0 := uidLoop_import_count_other env depth e (uidsOf env e) st a hea
          simp only [countImport, List.countP_cons] at h0 ⊢
          rw [h0]
          simp [isImportOf]
      · by_cases hea : a = e
        · subst hea
          have h1 := uidLoop_import_count_self env depth a (uidsOf env a) st
          have h2 : countImport a (emailLoop env depth rest
              (uidLoop env depth a (uidsOf env a) st).st).tr = 0 := by
            refine emailLoop_import_no_search env depth rest _ a ?_
            intro hmem
            exact hnotin (emailLoop_search_mem env depth rest _ hmem)
          simp only [countImport, List.countP_cons, List.countP_append] at h1 h2 ⊢
          rw [h2]
          simp [isImportOf]
          omega
        · have h0 := uidLoop_import_count_other env depth e (uidsOf env e) st a hea
          have h2 := ih (uidLoop env depth e (uidsOf env e) st).st hnd'
          simp only [countImport, List.countP_cons, List.countP_append] at h0 h2 ⊢
          rw [h0]
          simp [isImportOf]
          omega

theorem emailLoop_imported_sub (env : Env) (depth : Nat)
    (emails : List String) (st : LoopState) (a : String)
    (ha : a ∈ (emailLoop env depth emails st).st.imported) :
    a ∈ st.imported ∨ ∃ k, Event.keyImport a k ∈ (emailLoop env depth emails st).tr ∧
      importOk (env.importRes k) = true := by
  induction emails generalizing st with
  | nil => simp [emailLoop] at ha ⊢; exact ha
  | cons e rest ih =>
    simp only [emailLoop] at ha ⊢
    revert ha
    split
    · intro ha
      exact ih _ ha
    · split
      · intro ha
        rcases uidLoop_imported_sub env depth e _ st a ha with h | ⟨rfl, k, hk, hok⟩
        · exact Or.inl h
        · exact Or.inr ⟨k, List.mem_cons_of_mem _ hk, hok⟩
      · intro ha
        rcases ih _ ha with h | ⟨k, hk, hok⟩
        · rcases uidLoop_imported_sub env depth e _ st a h with h2 | ⟨rfl, k, hk, hok⟩
          · exact Or.inl h2
          · exact Or.inr ⟨k, List.mem_cons_of_mem _ (List.mem_append.mpr (Or.inl hk)), hok⟩
        · exact Or.inr ⟨k, List.mem_cons_of_mem _ (List.mem_append.mpr (Or.inr hk)), hok⟩

theorem emailLoop_imported_super (env : Env) (depth : Nat)
    (emails : List String) (st : LoopState) (a k : String)
    (hev : Event.keyImport a k ∈ (emailLoop env depth emails st).tr)
    (hok : importOk (env.importRes k) = true) :
    a ∈ (emailLoop env depth emails st).st.imported := by
  induction emails generalizing st with
  | nil => simp [emailLoop] at hev
  | cons e rest ih =>
    simp only [emailLoop] at hev ⊢
    revert hev
    split
    · intro hev
      exact ih _ hev
    · split
      · intro hev
        rcases List.mem_cons.mp hev with h | h
        · exact absurd h (by simp)
        · exact uidLoop_imported_super env depth e _ st a k h hok
      · intro hev
        rcases List.mem_cons.mp hev with h | h
        · exact absurd h (by simp)
        · rcases List.mem_append.mp h with h2 | h2
          · exact emailLoop_mono_imported env depth rest _
              (uidLoop_imported_super env depth e _ st a k h2 hok)
          · exact ih _ h2

theorem emailLoop_notFound_sub (env : Env) (depth : Nat)
    (emails : List String) (st : LoopState) (a : String)
    (ha : a ∈ (emailLoop env depth emails st).st.notFound) :
    a ∈ st.notFound ∨ ∃ uid ∈ uidsOf env a, env.gpgKeyOf uid = none := by
  induction emails generalizing st with
  | nil => exact Or.inl (by simpa [emailLoop] using ha)
  | cons e rest ih =>
    simp only [emailLoop] at ha
    revert ha
    split
    · intro ha
      exact ih _ ha
    · split
      · intro ha
        rcases uidLoop_notFound_sub env depth e _ st a ha with h | ⟨rfl, hu⟩
        · exact Or.inl h
        · exact Or.inr hu
      · intro ha
        rcases ih _ ha with h | h
        · rcases uidLoop_notFound_sub env depth e _ st a h with h2 | ⟨rfl, hu⟩
          · exact Or.inl h2
          · exact Or.inr hu
        · exact Or.inr h

theorem emailLoop_found_none_noStop (env : Env) (depth : Nat)
    (emails : List String) (st : LoopState)
    (hf : (emailLoop env depth emails st).found = none) :
    noStopTr (emailLoop env depth emails st).tr := by
  induction emails generalizing st with
  | nil => exact ⟨by simp [emailLoop], by simp [emailLoop]⟩
  | cons e rest ih =>
    simp only [emailLoop] at hf ⊢
    revert hf
    split
    · intro hf
      exact ih _ hf
    · split
      · intro hf
        simp at hf
      · rename_i hfu
        intro hf
        obtain ⟨h1, h2⟩ := ih _ hf
        obtain ⟨h3, h4⟩ := uidLoop_found_none_noStop env depth e _ st hfu
        refine ⟨fun r hr => ?_, fun h hh => ?_⟩
        · rcases List.mem_cons.mp hr with h5 | h5
          · exact absurd h5 (by simp)
          · rcases List.mem_append.mp h5 with h6 | h6
            · exact h3 r h6
            · exact h1 r h6
        · rcases List.mem_cons.mp hh with h5 | h5
          · exact absurd h5 (by simp)
          · rcases List.mem_append.mp h5 with h6 | h6
            · exact h4 h h6
            · exact h2 h h6

theorem emailLoop_found_some_struct (env : Env) (depth : Nat)
    (emails : List String) (st : LoopState) (h : String)
    (hf : (emailLoop env depth emails st).found = some h) :
    ∃ pre, (emailLoop env depth emails st).tr =
        pre ++ [Event.scan (some h), Event.checkout h] ∧ noStopTr pre := by
  induction emails generalizing st with
  | nil => simp [emailLoop] at hf
  | cons e rest ih =>
    simp only [emailLoop] at hf ⊢
    revert hf
    split
    · intro hf
      exact ih _ hf
    · split
      · rename_i h' hfu
        intro hf
        have hh : h' = h := by simpa using hf
        subst hh
        obtain ⟨pre, hpre, hns⟩ := uidLoop_found_some_struct env depth e _ st h' hfu
        exact ⟨Event.searchUid e :: pre, by simp [hpre],
          noStopTr_cons ⟨fun r => Or.inl (by simp), fun h2 => by simp⟩ hns⟩
      · rename_i hfu
        intro hf
        obtain ⟨pre, hpre, hns⟩ := ih _ hf
        obtain ⟨h3, h4⟩ := uidLoop_found_none_noStop env depth e _ st hfu
        refine ⟨Event.searchUid e :: ((uidLoop env depth e (uidsOf env e) st).tr ++ pre),
          by simp [hpre], ?_⟩
        refine noStopTr_cons ⟨fun r => Or.inl (by simp), fun h2 => by simp⟩ ?_
        refine ⟨fun r hr => ?_, fun h2 hh => ?_⟩
        · rcases List.mem_append.mp hr with h5 | h5
          · exact h3 r h5
          · exact hns.1 r h5
        · rcases List.mem_append.mp hh with h5 | h5
          · exact h4 h2 h5
          · exact hns.2 h2 h5

theorem emailLoop_checkout_scan (env : Env) (depth : Nat)
    (emails : List String) (st : LoopState) (h : String)
    (hc : Event.checkout h ∈ (emailLoop env depth emails st).tr) :
    ∃ kr, get_signed_commit_sha (env.logAt depth kr) = some h := by
  induction emails generalizing st with
  | nil => simp [emailLoop] at hc
  | cons e rest ih =>
    simp only [emailLoop] at hc
    revert hc
    split
    · intro hc
      exact ih _ hc
    · split
      · intro hc
        rcases List.mem_cons.mp hc with h2 | h2
        · exact absurd h2 (by simp)
        · exact uidLoop_checkout_scan env depth e _ st h h2
      · intro hc
        rcases List.mem_cons.mp hc with h2 | h2
        · exact absurd h2 (by simp)
        · rcases List.mem_append.mp h2 with h3 | h3
          · exact uidLoop_checkout_scan env depth e _ st h h3
          · exact ih _ h3

theorem uidLoop_other_preserved (env : Env) (depth : Nat) (e : String)
    (uids : List Int) (st : LoopState) (a : String) (hne : a ≠ e) :
    (a ∈ (uidLoop env depth e uids st).st.imported ↔ a ∈ st.imported) ∧
      (a ∈ (uidLoop env depth e uids st).st.notFound ↔ a ∈ st.notFound) := by
  constructor
  · constructor
    · intro ha
      rcases uidLoop_imported_sub env depth e uids st a ha with h | ⟨rfl, _⟩
      · exact h
      · exact absurd rfl hne
    · exact uidLoop_mono_imported env depth e uids st
  · constructor
    · intro ha
      rcases uidLoop_notFound_sub env depth e uids st a ha with h | ⟨rfl, _⟩
      · exact h
      · exact absurd rfl hne
    · exact uidLoop_mono_notFound env depth e uids st

theorem uidLoop_self_preserved (env : Env) (depth : Nat)
    (uids : List Int) (st : LoopState) (a : String)
    (hcl : classifies env uids = false) :
    (a ∈ (uidLoop env depth a uids st).st.imported ↔ a ∈ st.imported) ∧
      (a ∈ (uidLoop env depth a uids st).st.notFound ↔ a ∈ st.notFound) := by
  obtain ⟨h1, h2⟩ := uidLoop_noclassify env depth a uids st hcl
  rw [h1, h2]
  exact ⟨Iff.rfl, Iff.rfl⟩

theorem emailLoop_noclassify (env : Env) (depth : Nat)
    (emails : List String) (st : LoopState) (a : String)
    (hcl : classifies env (uidsOf env a) = false) :
    (a ∈ (emailLoop env depth emails st).st.imported ↔ a ∈ st.imported) ∧
      (a ∈ (emailLoop env depth emails st).st.notFound ↔ a ∈ st.notFound) := by
  induction emails generalizing st with
  | nil => simp [emailLoop]
  | cons e rest ih =>
    simp only [emailLoop]
    split
    · exact ih _
    · have huid : (a ∈ (uidLoop env depth e (uidsOf env e) st).st.imported ↔
          a ∈ st.imported) ∧
          (a ∈ (uidLoop env depth e (uidsOf env e) st).st.notFound ↔
            a ∈ st.notFound) := by
        by_cases hea : a = e
        · subst hea
          exact uidLoop_self_preserved env depth (uidsOf env a) st a hcl
        · exact uidLoop_other_preserved env depth e (uidsOf env e) st a hea
      split
      · exact huid
      · obtain ⟨i1, i2⟩ := ih (uidLoop env depth e (uidsOf env e) st).st
        rw [i1, i2, huid.1, huid.2]
        exact ⟨Iff.rfl, Iff.rfl⟩

theorem emailLoop_classify_complete (env : Env) (depth : Nat)
    (emails : List String) (st : LoopState) (a : String)
    (hf : (emailLoop env depth emails st).found = none)
    (hmem : a ∈ emails)
    (hcl : classifies env (uidsOf env a) = true) :
    a ∈ (emailLoop env depth emails st).st.imported ∨
      a ∈ (emailLoop env depth emails st).st.notFound := by
  induction emails generalizing st with
  | nil => simp at hmem
  | cons e rest ih =>
    simp only [emailLoop] at hf ⊢
    revert hf
    split
    · rename_i hguard
      intro hf
      by_cases hea : a = e
      · subst hea
        rcases hguard with h | h
        · exact Or.inl (emailLoop_mono_imported env depth rest _ h)
        · exact Or.inr (emailLoop_mono_notFound env depth rest _ h)
      · exact ih _ hf (List.mem_of_ne_of_mem (by exact hea) hmem)
    · split
      · intro hf
        simp at hf
      · rename_i hfu
        intro hf
        by_cases hea : a = e
        · subst hea
          rcases uidLoop_classify_complete env depth a (uidsOf env a) st hfu hcl with h | h
          · exact Or.inl (emailLoop_mono_imported env depth rest _ h)
          · exact Or.inr (emailLoop_mono_notFound env depth rest _ h)
        · exact ih _ hf (List.mem_of_ne_of_mem (by exact hea) hmem)

/-! ## `mainLoop` lemmas -/

theorem mainLoop_mono_imported (env : Env) (fuel depth : Nat) (st : LoopState)
    {a : String} (ha : a ∈ st.imported) :
    a ∈ (mainLoop env fuel depth st).st.imported := by
  induction fuel generalizing depth st with
  | zero => simpa [mainLoop] using ha
  | succ fuel ih =>
    simp only [mainLoop]
    split
    · exact ha
    · split
      · exact ha
      · split
        · exact emailLoop_mono_imported env depth _ st ha
        · exact ih _ _ (emailLoop_mono_imported env depth _ st ha)

theorem mainLoop_mono_notFound (env : Env) (fuel depth : Nat) (st : LoopState)
    {a : String} (ha : a ∈ st.notFound) :
    a ∈ (mainLoop env fuel depth st).st.notFound := by
  induction fuel generalizing depth st with
  | zero => simpa [mainLoop] using ha
  | succ fuel ih =>
    simp only [mainLoop]
    split
    · exact ha
    · split
      · exact ha
      · split
        · exact emailLoop_mono_notFound env depth _ st ha
        · exact ih _ _ (emailLoop_mono_notFound env depth _ st ha)

theorem mainLoop_guard (env : Env) (fuel depth : Nat) (st : LoopState)
    (a : String) (ha : a ∈ st.imported ∨ a ∈ st.notFound) :
    countSearch a (mainLoop env fuel depth st).tr = 0 ∧
      countImport a (mainLoop env fuel depth st).tr = 0 := by
  induction fuel generalizing depth st with
  | zero => simp [mainLoop, countSearch, countImport]
  | succ fuel ih =>
    simp only [mainLoop]
    split
    · simp [countSearch, countImport, List.countP_cons, isSearchOf, isImportOf]
    · split
      · simp [countSearch, countImport, List.countP_cons, isSearchOf, isImportOf]
      · have hs0 : countSearch a (emailLoop env depth
            (sortedSet (env.commitEmails depth)) st).tr = 0 :=
          countSearch_eq_zero.mpr (emailLoop_guard_no_search env depth _ st ha)
        have hi0 : countImport a (emailLoop env depth
            (sortedSet (env.commitEmails depth)) st).tr = 0 :=
          emailLoop_import_no_search env depth _ st a
            (emailLoop_guard_no_search env depth _ st ha)
        split
        · constructor
          · simp only [countSearch, List.countP_cons] at hs0 ⊢
            rw [hs0]
            simp [isSearchOf]
          · simp only [countImport, List.countP_cons] at hi0 ⊢
            rw [hi0]
            simp [isImportOf]
        · rename_i hfu
          have ha' : a ∈ (emailLoop env depth
              (sortedSet (env.commitEmails depth)) st).st.imported ∨
              a ∈ (emailLoop env depth (sortedSet (env.commitEmails depth)) st).st.notFound := by
            rcases ha with h | h
            · exact Or.inl (emailLoop_mono_imported env depth _ st h)
            · exact Or.inr (emailLoop_mono_notFound env depth _ st h)
          obtain ⟨m1, m2⟩ := ih (depth * 2) _ ha'
          constructor
          · simp only [countSearch, List.countP_cons, List.countP_append] at hs0 m1 ⊢
            rw [hs0, m1]
            simp [isSearchOf]
          · simp only [countImport, List.countP_cons, List.countP_append] at hi0 m2 ⊢
            rw [hi0, m2]
            simp [isImportOf]

theorem mainLoop_noclassify (env : Env) (fuel depth : Nat) (st : LoopState)
    (a : String) (hcl : classifies env (uidsOf env a) = false) :
    (a ∈ (mainLoop env fuel depth st).st.imported ↔ a ∈ st.imported) ∧
      (a ∈ (mainLoop env fuel depth st).st.notFound ↔ a ∈ st.notFound) := by
  induction fuel generalizing depth st with
  | zero => simp [mainLoop]
  | succ fuel ih =>
    simp only [mainLoop]
    split
    · exact ⟨Iff.rfl, Iff.rfl⟩
    · split
      · exact ⟨Iff.rfl, Iff.rfl⟩
      · have he := emailLoop_noclassify env depth
          (sortedSet (env.commitEmails depth)) st a hcl
        split
        · exact he
        · obtain ⟨i1, i2⟩ := ih (depth * 2)
            (emailLoop env depth (sortedSet (env.commitEmails depth)) st).st
          rw [i1, i2, he.1, he.2]
          exact ⟨Iff.rfl, Iff.rfl⟩

theorem mainLoop_imported_sub (env : Env) (fuel depth : Nat) (st : LoopState)
    (a : String) (ha : a ∈ (mainLoop env fuel depth st).st.imported) :
    a ∈ st.imported ∨ ∃ k, Event.keyImport a k ∈ (mainLoop env fuel depth st).tr ∧
      importOk (env.importRes k) = true := by
  induction fuel generalizing depth st with
  | zero => exact Or.inl (by simpa [mainLoop] using ha)
  | succ fuel ih =>
    simp only [mainLoop] at ha ⊢
    revert ha
    split
    · intro ha
      exact Or.inl ha
    · split
      · intro ha
        exact Or.inl ha
      · split
        · intro ha
          rcases emailLoop_imported_sub env depth _ st a ha with h | ⟨k, hk, hok⟩
          · exact Or.inl h
          · exact Or.inr ⟨k, List.mem_cons_of_mem _ hk, hok⟩
        · intro ha
          rcases ih (depth * 2) _ ha with h | ⟨k, hk, hok⟩
          · rcases emailLoop_imported_sub env depth _ st a h with h2 | ⟨k, hk, hok⟩
            · exact Or.inl h2
            · exact Or.inr ⟨k, List.mem_cons_of_mem _ (List.mem_append.mpr (Or.inl hk)), hok⟩
          · exact Or.inr ⟨k, List.mem_cons_of_mem _ (List.mem_append.mpr (Or.inr hk)), hok⟩

theorem mainLoop_imported_super (env : Env) (fuel depth : Nat) (st : LoopState)
    (a k : String) (hev : Event.keyImport a k ∈ (mainLoop env fuel depth st).tr)
    (hok : importOk (env.importRes k) = true) :
    a ∈ (mainLoop env fuel depth st).st.imported := by
  induction fuel generalizing depth st with
  | zero => simp [mainLoop] at hev
  | succ fuel ih =>
    simp only [mainLoop] at hev ⊢
    revert hev
    split
    · intro hev
      simp at hev
    · split
      · intro hev
        simp at hev
      · split
        · intro hev
          rcases List.mem_cons.mp hev with h | h
          · exact absurd h (by simp)
          · exact emailLoop_imported_super env depth _ st a k h hok
        · intro hev
          rcases List.mem_cons.mp hev with h | h
          · exact absurd h (by simp)
          · rcases List.mem_append.mp h with h2 | h2
            · exact mainLoop_mono_imported env fuel (depth * 2) _
                (emailLoop_imported_super env depth _ st a k h2 hok)
            · exact ih (depth * 2) _ h2

theorem mainLoop_notFound_sub (env : Env) (fuel depth : Nat) (st : LoopState)
    (a : String) (ha : a ∈ (mainLoop env fuel depth st).st.notFound) :
    a ∈ st.notFound ∨ ∃ uid ∈ uidsOf env a, env.gpgKeyOf uid = none := by
  induction fuel generalizing depth st with
  | zero => exact Or.inl (by simpa [mainLoop] using ha)
  | succ fuel ih =>
    simp only [mainLoop] at ha
    revert ha
    split
    · intro ha
      exact Or.inl ha
    · split
      · intro ha
        exact Or.inl ha
      · split
        · intro ha
          exact emailLoop_notFound_sub env depth _ st a ha
        · intro ha
          rcases ih (depth * 2) _ ha with h | h
          · exact emailLoop_notFound_sub env depth _ st a h
          · exact Or.inr h

theorem mainLoop_fetch_char (env : Env) (fuel depth : Nat) (st : LoopState)
    (d : Nat) (ar : FetchArg) (o : String)
    (hev : Event.fetch d ar o ∈ (mainLoop env fuel depth st).tr) :
    ar = fetchArgOf d ∧ o = env.fetchOut d := by
  induction fuel generalizing depth st with
  | zero => simp [mainLoop] at hev
  | succ fuel ih =>
    simp only [mainLoop] at hev
    revert hev
    split
    · intro hev
      obtain ⟨h1, h2, h3⟩ := Event.fetch.inj (by simpa using hev)
      subst h1
      exact ⟨h2, h3⟩
    · split
      · intro hev
        obtain ⟨h1, h2, h3⟩ := Event.fetch.inj (by simpa using hev)
        subst h1
        exact ⟨h2, h3⟩
      · split
        · intro hev
          rcases List.mem_cons.mp hev with h | h
          · obtain ⟨h1, h2, h3⟩ := Event.fetch.inj h
            subst h1
            exact ⟨h2, h3⟩
          · exact absurd h (emailLoop_no_fetch env depth _ st d ar o)
        · intro hev
          rcases List.mem_cons.mp hev with h | h
          · obtain ⟨h1, h2, h3⟩ := Event.fetch.inj h
            subst h1
            exact ⟨h2, h3⟩
          · rcases List.mem_append.mp h with h2 | h2
            · exact absurd h2 (emailLoop_no_fetch env depth _ st d ar o)
            · exact ih (depth * 2) _ h2

theorem mainLoop_step_match (env : Env) (fuel depth : Nat) (st : LoopState)
    (hm : matchesNoNewCommits (env.fetchOut depth) = true) :
    mainLoop env (fuel + 1) depth st =
      ⟨RunResult.fatalExit "No new commits found on server", st,
        [Event.fetch depth (fetchArgOf depth) (env.fetchOut depth)]⟩ := by
  simp only [mainLoop]
  rw [if_pos hm]

theorem mainLoop_step_cap (env : Env) (fuel depth : Nat) (st : LoopState)
    (hm : matchesNoNewCommits (env.fetchOut depth) = false)
    (hd : GIT_FETCH_DEPTH_LIMIT ≤ depth) :
    mainLoop env (fuel + 1) depth st =
      ⟨RunResult.noCheckoutReturn, st,
        [Event.fetch depth (fetchArgOf depth) (env.fetchOut depth)]⟩ := by
  simp only [mainLoop]
  rw [if_neg (by simp [hm]), if_pos hd]

theorem mainLoop_step_found (env : Env) (fuel depth : Nat) (st : LoopState)
    (h : String)
    (hm : matchesNoNewCommits (env.fetchOut depth) = false)
    (hd : ¬GIT_FETCH_DEPTH_LIMIT ≤ depth)
    (hfu : (emailLoop env depth (sortedSet (env.commitEmails depth)) st).found = some h) :
    mainLoop env (fuel + 1) depth st =
      ⟨RunResult.checkedOut h,
        (emailLoop env depth (sortedSet (env.commitEmails depth)) st).st,
        Event.fetch depth (fetchArgOf depth) (env.fetchOut depth) ::
          (emailLoop env depth (sortedSet (env.commitEmails depth)) st).tr⟩ := by
  simp only [mainLoop]
  rw [if_neg (by simp [hm]), if_neg hd]
  simp only [hfu]

theorem mainLoop_step_none (env : Env) (fuel depth : Nat) (st : LoopState)
    (hm : matchesNoNewCommits (env.fetchOut depth) = false)
    (hd : ¬GIT_FETCH_DEPTH_LIMIT ≤ depth)
    (hfu : (emailLoop env depth (sortedSet (env.commitEmails depth)) st).found = none) :
    mainLoop env (fuel + 1) depth st =
      ⟨(mainLoop env fuel (depth * 2)
          (emailLoop env depth (sortedSet (env.commitEmails depth)) st).st).res,
        (mainLoop env fuel (depth * 2)
          (emailLoop env depth (sortedSet (env.commitEmails depth)) st).st).st,
        Event.fetch depth (fetchArgOf depth) (env.fetchOut depth) ::
          ((emailLoop env depth (sortedSet (env.commitEmails depth)) st).tr ++
            (mainLoop env fuel (depth * 2)
              (emailLoop env depth (sortedSet (env.commitEmails depth)) st).st).tr)⟩ := by
  simp only [mainLoop]
  rw [if_neg (by simp [hm]), if_neg hd]
  simp only [hfu]

theorem emailLoop_fetchDepths_nil (env : Env) (depth : Nat)
    (emails : List String) (st : LoopState) :
    fetchDepths (emailLoop env depth emails st).tr = [] := by
  rw [fetchDepths, List.filterMap_eq_nil_iff]
  intro ev hev
  cases ev with
  | fetch d ar o => exact absurd hev (emailLoop_no_fetch env depth emails st d ar o)
  | searchUid e => rfl
  | keyFetch u => rfl
  | keyImport e k => rfl
  | scan r => rfl
  | checkout h => rfl

theorem fetchDepths_cons_fetch (d : Nat) (ar : FetchArg) (o : String)
    (l : List Event) :
    fetchDepths (Event.fetch d ar o :: l) = d :: fetchDepths l := rfl

theorem fetchDepths_append (a b : List Event) :
    fetchDepths (a ++ b) = fetchDepths a ++ fetchDepths b := by
  simp [fetchDepths]

theorem mainLoop_doubling (env : Env) (fuel depth : Nat) (st : LoopState) :
    doublingFrom depth (fetchDepths (mainLoop env fuel depth st).tr) := by
  induction fuel generalizing depth st with
  | zero => simp [mainLoop, fetchDepths, doublingFrom]
  | succ fuel ih =>
    by_cases hm : matchesNoNewCommits (env.fetchOut depth) = true
    · rw [mainLoop_step_match env fuel depth st hm]
      exact ⟨rfl, trivial⟩
    · have hm' : matchesNoNewCommits (env.fetchOut depth) = false :=
        Bool.not_eq_true _ ▸ (by simpa using hm)
      by_cases hd : GIT_FETCH_DEPTH_LIMIT ≤ depth
      · rw [mainLoop_step_cap env fuel depth st hm' hd]
        exact ⟨rfl, trivial⟩
      · cases hfu : (emailLoop env depth (sortedSet (env.commitEmails depth)) st).found with
        | some h =>
          rw [mainLoop_step_found env fuel depth st h hm' hd hfu]
          show doublingFrom depth (depth :: fetchDepths
            (emailLoop env depth (sortedSet (env.commitEmails depth)) st).tr)
          rw [emailLoop_fetchDepths_nil]
          exact ⟨rfl, trivial⟩
        | none =>
          rw [mainLoop_step_none env fuel depth st hm' hd hfu]
          show doublingFrom depth (depth :: fetchDepths
            ((emailLoop env depth (sortedSet (env.commitEmails depth)) st).tr ++
              (mainLoop env fuel (depth * 2)
                (emailLoop env depth (sortedSet (env.commitEmails depth)) st).st).tr))
          rw [fetchDepths_append, emailLoop_fetchDepths_nil, List.nil_append]
          exact ⟨rfl, ih _ _⟩

theorem doublingFrom_chain (d : Nat) (l : List Nat) (h : doublingFrom d l) :
    List.Chain' (fun a b => b = a * 2) l := by
  induction l generalizing d with
  | nil => simp
  | cons a rest ih =>
    obtain ⟨rfl, h2⟩ := h
    cases rest with
    | nil => simp
    | cons b rest2 =>
      have h3 := h2
      obtain ⟨hb, _⟩ := h3
      exact List.Chain'.cons hb (ih _ h2)

theorem stopsAtFound_append (a b : List Event) (hns : noStopTr a) :
    stopsAtFound (a ++ b) = stopsAtFound b := by
  induction a with
  | nil => rfl
  | cons ev rest ih =>
    have hns' : noStopTr rest :=
      ⟨fun r hr => hns.1 r (List.mem_cons_of_mem _ hr),
        fun h hh => hns.2 h (List.mem_cons_of_mem _ hh)⟩
    cases ev with
    | fetch d ar o => simpa [stopsAtFound] using ih hns'
    | searchUid e => simpa [stopsAtFound] using ih hns'
    | keyFetch u => simpa [stopsAtFound] using ih hns'
    | keyImport e k => simpa [stopsAtFound] using ih hns'
    | checkout h =>
      have := hns.2 h (List.mem_cons_self _ _)
      simp at this
    | scan r =>
      cases r with
      | none => simpa [stopsAtFound] using ih hns'
      | some h =>
        have := hns.1 (some h) (List.mem_cons_self _ _)
        simp at this

theorem mainLoop_stops (env : Env) (fuel depth : Nat) (st : LoopState) :
    stopsAtFound (mainLoop env fuel depth st).tr = true := by
  induction fuel generalizing depth st with
  | zero => rfl
  | succ fuel ih =>
    by_cases hm : matchesNoNewCommits (env.fetchOut depth) = true
    · rw [mainLoop_step_match env fuel depth st hm]
      simp [stopsAtFound]
    · have hm' : matchesNoNewCommits (env.fetchOut depth) = false := by simpa using hm
      by_cases hd : GIT_FETCH_DEPTH_LIMIT ≤ depth
      · rw [mainLoop_step_cap env fuel depth st hm' hd]
        simp [stopsAtFound]
      · cases hfu : (emailLoop env depth (sortedSet (env.commitEmails depth)) st).found with
        | some h =>
          rw [mainLoop_step_found env fuel depth st h hm' hd hfu]
          obtain ⟨pre, hpre, hns⟩ :=
            emailLoop_found_some_struct env depth _ st h hfu
          show stopsAtFound (Event.fetch depth (fetchArgOf depth) (env.fetchOut depth) ::
            (emailLoop env depth (sortedSet (env.commitEmails depth)) st).tr) = true
          rw [show stopsAtFound (Event.fetch depth (fetchArgOf depth) (env.fetchOut depth) ::
              (emailLoop env depth (sortedSet (env.commitEmails depth)) st).tr) =
              stopsAtFound (emailLoop env depth (sortedSet (env.commitEmails depth)) st).tr
            from rfl]
          rw [hpre, stopsAtFound_append _ _ hns]
          simp [stopsAtFound]
        | none =>
          rw [mainLoop_step_none env fuel depth st hm' hd hfu]
          have hns := emailLoop_found_none_noStop env depth _ st hfu
          show stopsAtFound (Event.fetch depth (fetchArgOf depth) (env.fetchOut depth) ::
            ((emailLoop env depth (sortedSet (env.commitEmails depth)) st).tr ++
              (mainLoop env fuel (depth * 2)
                (emailLoop env depth (sortedSet (env.commitEmails depth)) st).st).tr)) = true
          rw [show ∀ l, stopsAtFound (Event.fetch depth (fetchArgOf depth)
              (env.fetchOut depth) :: l) = stopsAtFound l from fun l => rfl]
          rw [stopsAtFound_append _ _ hns]
          exact ih _ _

theorem mainLoop_checkout_res (env : Env) (fuel depth : Nat) (st : LoopState)
    (h : String) (hc : Event.checkout h ∈ (mainLoop env fuel depth st).tr) :
    (mainLoop env fuel depth st).res = RunResult.checkedOut h := by
  induction fuel generalizing depth st with
  | zero => simp [mainLoop] at hc
  | succ fuel ih =>
    by_cases hm : matchesNoNewCommits (env.fetchOut depth) = true
    · rw [mainLoop_step_match env fuel depth st hm] at hc
      simp at hc
    · have hm' : matchesNoNewCommits (env.fetchOut depth) = false := by simpa using hm
      by_cases hd : GIT_FETCH_DEPTH_LIMIT ≤ depth
      · rw [mainLoop_step_cap env fuel depth st hm' hd] at hc
        simp at hc
      · cases hfu : (emailLoop env depth (sortedSet (env.commitEmails depth)) st).found with
        | some h' =>
          rw [mainLoop_step_found env fuel depth st h' hm' hd hfu] at hc ⊢
          rcases List.mem_cons.mp hc with h2 | h2
          · exact absurd h2 (by simp)
          · obtain ⟨pre, hpre, hns⟩ :=
              emailLoop_found_some_struct env depth _ st h' hfu
            rw [hpre] at h2
            rcases List.mem_append.mp h2 with h3 | h3
            · exact absurd h3 (hns.2 h)
            · have : h = h' := by simpa using h3
              simp [this]
        | none =>
          rw [mainLoop_step_none env fuel depth st hm' hd hfu] at hc ⊢
          rcases List.mem_cons.mp hc with h2 | h2
          · exact absurd h2 (by simp)
          · rcases List.mem_append.mp h2 with h3 | h3
            · exact absurd h3
                ((emailLoop_found_none_noStop env depth _ st hfu).2 h)
            · exact ih _ _ h3

theorem mainLoop_checkout_scan (env : Env) (fuel depth : Nat) (st : LoopState)
    (h : String) (hc : Event.checkout h ∈ (mainLoop env fuel depth st).tr) :
    ∃ d kr, get_signed_commit_sha (env.logAt d kr) = some h := by
  induction fuel generalizing depth st with
  | zero => simp [mainLoop] at hc
  | succ fuel ih =>
    by_cases hm : matchesNoNewCommits (env.fetchOut depth) = true
    · rw [mainLoop_step_match env fuel depth st hm] at hc
      simp at hc
    · have hm' : matchesNoNewCommits (env.fetchOut depth) = false := by simpa using hm
      by_cases hd : GIT_FETCH_DEPTH_LIMIT ≤ depth
      · rw [mainLoop_step_cap env fuel depth st hm' hd] at hc
        simp at hc
      · cases hfu : (emailLoop env depth (sortedSet (env.commitEmails depth)) st).found with
        | some h' =>
          rw [mainLoop_step_found env fuel depth st h' hm' hd hfu] at hc
          rcases List.mem_cons.mp hc with h2 | h2
          · exact absurd h2 (by simp)
          · obtain ⟨kr, hkr⟩ := emailLoop_checkout_scan env depth _ st h h2
            exact ⟨depth, kr, hkr⟩
        | none =>
          rw [mainLoop_step_none env fuel depth st hm' hd hfu] at hc
          rcases List.mem_cons.mp hc with h2 | h2
          · exact absurd h2 (by simp)
          · rcases List.mem_append.mp h2 with h3 | h3
            · obtain ⟨kr, hkr⟩ := emailLoop_checkout_scan env depth _ st h h3
              exact ⟨depth, kr, hkr⟩
            · exact ih _ _ h3

theorem mainLoop_head (env : Env) (fuel depth : Nat) (st : LoopState)
    (hfuel : 0 < fuel) :
    (fetchDepths (mainLoop env fuel depth st).tr).head? = some depth := by
  cases fuel with
  | zero => exact absurd hfuel (by simp)
  | succ fuel =>
    by_cases hm : matchesNoNewCommits (env.fetchOut depth) = true
    · rw [mainLoop_step_match env fuel depth st hm]
      rfl
    · have hm' : matchesNoNewCommits (env.fetchOut depth) = false := by simpa using hm
      by_cases hd : GIT_FETCH_DEPTH_LIMIT ≤ depth
      · rw [mainLoop_step_cap env fuel depth st hm' hd]
        rfl
      · cases hfu : (emailLoop env depth (sortedSet (env.commitEmails depth)) st).found with
        | some h' => rw [mainLoop_step_found env fuel depth st h' hm' hd hfu]; rfl
        | none => rw [mainLoop_step_none env fuel depth st hm' hd hfu]; rfl

theorem mainLoop_total0 (env : Env) (fuel : Nat) :
    ∀ (depth : Nat) (st : LoopState) (t1 t2 : List Event) (d : Nat)
      (ar : FetchArg) (o : String),
    (mainLoop env fuel depth st).tr = t1 ++ Event.fetch d ar o :: t2 →
    matchesNoNewCommits o = true →
    t2 = [] ∧ (mainLoop env fuel depth st).res =
      RunResult.fatalExit "No new commits found on server" := by
  induction fuel with
  | zero =>
    intro depth st t1 t2 d ar o hsplit hmatch
    simp [mainLoop] at hsplit
  | succ fuel ih =>
    intro depth st t1 t2 d ar o hsplit hmatch
    by_cases hm : matchesNoNewCommits (env.fetchOut depth) = true
    · rw [mainLoop_step_match env fuel depth st hm] at hsplit ⊢
      cases t1 with
      | nil =>
        simp only [List.nil_append] at hsplit
        have hlen := congrArg List.length hsplit
        simp at hlen
        exact ⟨hlen, rfl⟩
      | cons x xs =>
        have hlen := congrArg List.length hsplit
        simp at hlen
    · have hm' : matchesNoNewCommits (env.fetchOut depth) = false := by simpa using hm
      by_cases hd : GIT_FETCH_DEPTH_LIMIT ≤ depth
      · rw [mainLoop_step_cap env fuel depth st hm' hd] at hsplit ⊢
        cases t1 with
        | nil =>
          simp only [List.nil_append] at hsplit
          have ho : o = env.fetchOut depth := by
            have := List.head_eq_of_cons_eq hsplit.symm
            exact (Event.fetch.inj this).2.2
          rw [ho] at hmatch
          rw [hmatch] at hm'
          simp at hm'
        | cons x xs =>
          have hlen := congrArg List.length hsplit
          simp at hlen
      · cases hfu : (emailLoop env depth (sortedSet (env.commitEmails depth)) st).found with
        | some h' =>
          rw [mainLoop_step_found env fuel depth st h' hm' hd hfu] at hsplit ⊢
          cases t1 with
          | nil =>
            simp only [List.nil_append] at hsplit
            have ho : o = env.fetchOut depth := by
              have := List.head_eq_of_cons_eq hsplit
              exact (Event.fetch.inj this.symm).2.2
            rw [ho] at hmatch
            rw [hmatch] at hm'
            simp at hm'
          | cons x xs =>
            have htail := List.tail_eq_of_cons_eq hsplit
            have : Event.fetch d ar o ∈
                (emailLoop env depth (sortedSet (env.commitEmails depth)) st).tr := by
              rw [htail]
              simp
            exact absurd this (emailLoop_no_fetch env depth _ st d ar o)
        | none =>
          rw [mainLoop_step_none env fuel depth st hm' hd hfu] at hsplit ⊢
          cases t1 with
          | nil =>
            simp only [List.nil_append] at hsplit
            have ho : o = env.fetchOut depth := by
              have := List.head_eq_of_cons_eq hsplit
              exact (Event.fetch.inj this.symm).2.2
            rw [ho] at hmatch
            rw [hmatch] at hm'
            simp at hm'
          | cons x xs =>
            have htail := List.tail_eq_of_cons_eq hsplit
            rcases List.append_eq_append_iff.mp htail with
              ⟨a', ha1, ha2⟩ | ⟨c', hc1, hc2⟩
            · obtain ⟨h2, hres⟩ := ih (depth * 2) _ a' t2 d ar o ha2 hmatch
              exact ⟨h2, hres⟩
            · cases c' with
              | nil =>
                simp only [List.nil_append] at hc2
                obtain ⟨h2, hres⟩ := ih (depth * 2) _ [] t2 d ar o
                  (by simpa using hc2.symm) hmatch
                exact ⟨h2, hres⟩
              | cons y ys =>
                have hy : y = Event.fetch d ar o := (List.head_eq_of_cons_eq hc2).symm
                have : Event.fetch d ar o ∈
                    (emailLoop env depth (sortedSet (env.commitEmails depth)) st).tr := by
                  rw [hc1, hy]
                  simp
                exact absurd this (emailLoop_no_fetch env depth _ st d ar o)

theorem mainLoop_classified_bound (env : Env) (fuel : Nat) :
    ∀ (depth : Nat) (st : LoopState) (a : String),
    a ∉ st.imported → a ∉ st.notFound →
    (a ∈ (mainLoop env fuel depth st).st.imported ∨
      a ∈ (mainLoop env fuel depth st).st.notFound) →
    countSearch a (mainLoop env fuel depth st).tr ≤ 1 ∧
      countImport a (mainLoop env fuel depth st).tr ≤ (uidsOf env a).length := by
  induction fuel with
  | zero =>
    intro depth st a _ _ _
    simp [mainLoop, countSearch, countImport]
  | succ fuel ih =>
    intro depth st a hni hnn hmem
    by_cases hm : matchesNoNewCommits (env.fetchOut depth) = true
    · rw [mainLoop_step_match env fuel depth st hm]
      simp [countSearch, countImport, List.countP_cons, isSearchOf, isImportOf]
    · have hm' : matchesNoNewCommits (env.fetchOut depth) = false := by simpa using hm
      by_cases hd : GIT_FETCH_DEPTH_LIMIT ≤ depth
      · rw [mainLoop_step_cap env fuel depth st hm' hd]
        simp [countSearch, countImport, List.countP_cons, isSearchOf, isImportOf]
      · have hnd := nodup_sortedSet (env.commitEmails depth)
        cases hfu : (emailLoop env depth (sortedSet (env.commitEmails depth)) st).found with
        | some h =>
          rw [mainLoop_step_found env fuel depth st h hm' hd hfu]
          constructor
          · have h1 := emailLoop_search_le_one env depth
              (sortedSet (env.commitEmails depth)) st a hnd
            have hneg : ¬isSearchOf a (Event.fetch depth (fetchArgOf depth) (env.fetchOut depth)) = true := by simp [isSearchOf]
            simp only [countSearch] at h1 ⊢
            rw [List.countP_cons_of_neg _ _ hneg]
            omega
          · have h1 := emailLoop_import_le env depth
              (sortedSet (env.commitEmails depth)) st a hnd
            have hneg : ¬isImportOf a (Event.fetch depth (fetchArgOf depth) (env.fetchOut depth)) = true := by simp [isImportOf]
            simp only [countImport] at h1 ⊢
            rw [List.countP_cons_of_neg _ _ hneg]
            omega
        | none =>
          rw [mainLoop_step_none env fuel depth st hm' hd hfu] at hmem ⊢
          by_cases hcls2 : a ∈ (emailLoop env depth
              (sortedSet (env.commitEmails depth)) st).st.imported ∨
              a ∈ (emailLoop env depth (sortedSet (env.commitEmails depth)) st).st.notFound
          · obtain ⟨g1, g2⟩ := mainLoop_guard env fuel (depth * 2)
              (emailLoop env depth (sortedSet (env.commitEmails depth)) st).st a hcls2
            have h1 := emailLoop_search_le_one env depth
              (sortedSet (env.commitEmails depth)) st a hnd
            have h2 := emailLoop_import_le env depth
              (sortedSet (env.commitEmails depth)) st a hnd
            constructor
            · have hneg : ¬isSearchOf a (Event.fetch depth (fetchArgOf depth) (env.fetchOut depth)) = true := by simp [isSearchOf]
              simp only [countSearch] at g1 h1 ⊢
              rw [List.countP_cons_of_neg _ _ hneg, List.countP_append]
              omega
            · have hneg : ¬isImportOf a (Event.fetch depth (fetchArgOf depth) (env.fetchOut depth)) = true := by simp [isImportOf]
              simp only [countImport] at g2 h2 ⊢
              rw [List.countP_cons_of_neg _ _ hneg, List.countP_append]
              omega
          · push_neg at hcls2
            have hnosearch : Event.searchUid a ∉ (emailLoop env depth
                (sortedSet (env.commitEmails depth)) st).tr := by
              intro hs
              have hmem2 : a ∈ sortedSet (env.commitEmails depth) :=
                emailLoop_search_mem env depth _ st hs
              by_cases hcls : classifies env (uidsOf env a) = true
              · rcases emailLoop_classify_complete env depth
                  (sortedSet (env.commitEmails depth)) st a hfu hmem2 hcls with h | h
                · exact hcls2.1 h
                · exact hcls2.2 h
              · have hcf : classifies env (uidsOf env a) = false := by simpa using hcls
                obtain ⟨b1, b2⟩ := mainLoop_noclassify env fuel (depth * 2)
                  (emailLoop env depth (sortedSet (env.commitEmails depth)) st).st a hcf
                rcases hmem with h | h
                · exact hcls2.1 (b1.mp h)
                · exact hcls2.2 (b2.mp h)
            have hs0 : countSearch a (emailLoop env depth
                (sortedSet (env.commitEmails depth)) st).tr = 0 :=
              countSearch_eq_zero.mpr hnosearch
            have hi0 : countImport a (emailLoop env depth
                (sortedSet (env.commitEmails depth)) st).tr = 0 :=
              emailLoop_import_no_search env depth _ st a hnosearch
            obtain ⟨m1, m2⟩ := ih (depth * 2)
              (emailLoop env depth (sortedSet (env.commitEmails depth)) st).st a
              hcls2.1 hcls2.2 hmem
            constructor
            · have hneg : ¬isSearchOf a (Event.fetch depth (fetchArgOf depth) (env.fetchOut depth)) = true := by simp [isSearchOf]
              simp only [countSearch] at hs0 m1 ⊢
              rw [List.countP_cons_of_neg _ _ hneg, List.countP_append]
              omega
            · have hneg : ¬isImportOf a (Event.fetch depth (fetchArgOf depth) (env.fetchOut depth)) = true := by simp [isImportOf]
              simp only [countImport] at hi0 m2 ⊢
              rw [List.countP_cons_of_neg _ _ hneg, List.countP_append]
              omega

/-! ## Remaining helpers for the claim theorems -/

theorem transportedDepth_fetchArgOf_le (d : Nat) :
    transportedDepth (fetchArgOf d) ≤ GIT_FETCH_DEPTH_LIMIT := by
  unfold fetchArgOf
  split
  · rename_i h
    subst h
    simp [transportedDepth, INITIAL_GIT_FETCH_DEPTH, GIT_FETCH_DEPTH_LIMIT]
  · simp only [transportedDepth]
    exact Nat.min_le_left _ _

/-! ## Claim theorems -/

/-- C1: `get_signed_commit_sha` selects the hash of the newest log entry
whose signature status is `G` or `U` (first conjunct); every hash it
returns belongs to an entry with status `G` or `U` (second conjunct); and
every commit the loop ever checks out is a hash returned by such a scan
(third conjunct) — so a commit with any other signature status is never
selected for checkout. -/
theorem c1_signed_commit_selection :
    (∀ (log : List LogEntry) (i : Nat) (hi : i < log.length),
      isVerifiedStatus (log.get ⟨i, hi⟩).status = true →
      (∀ j (hj : j < log.length), j < i →
        isVerifiedStatus (log.get ⟨j, hj⟩).status = false) →
      get_signed_commit_sha log = some (log.get ⟨i, hi⟩).sha) ∧
    (∀ (log : List LogEntry) (h : String), get_signed_commit_sha log = some h →
      ∃ e, e ∈ log ∧ isVerifiedStatus e.status = true ∧ e.sha = h) ∧
    (∀ (env : Env) (fuel depth : Nat) (st : LoopState) (h : String),
      Event.checkout h ∈ (mainLoop env fuel depth st).tr →
      ∃ d kr, get_signed_commit_sha (env.logAt d kr) = some h) :=
  ⟨gscs_first, gscs_sound, mainLoop_checkout_scan⟩

/-- Witness for C1 at a concrete log: the newest `G` entry (index 1, behind
an unsigned newest commit) is the one selected. -/
theorem c1_signed_commit_selection_witness :
    get_signed_commit_sha demoLog =
      some "bbbb000011112222333344445555666677778888" :=
  c1_signed_commit_selection.1 demoLog 1 (by decide) (by decide) (by decide)

/-- C2 counterexample: in the `envTwoKeys` run the email is classified as
imported, yet two key-import attempts occur for it (one per resolved user
id, as the inner uid loop never breaks after an import) — refuting the
claim's "at most one key-import attempt per classified email". -/
theorem c2_multiple_imports_cex :
    "alice@suse.com" ∈ (runMain envTwoKeys 40).st.imported ∧
      countImport "alice@suse.com" (runMain envTwoKeys 40).tr = 2 := by
  decide

/-- C2 (amended): for every email classified as imported or not-found in a
run, at most one directory resolution occurs for it in the whole run (it is
never queried again once classified), and at most one key-import attempt
occurs per resolved directory user ID (rather than per email). -/
theorem c2_amended_at_most_one_search (env : Env) (fuel : Nat) (e : String)
    (hcl : e ∈ (runMain env fuel).st.imported ∨
      e ∈ (runMain env fuel).st.notFound) :
    countSearch e (runMain env fuel).tr ≤ 1 ∧
      countImport e (runMain env fuel).tr ≤ (uidsOf env e).length :=
  mainLoop_classified_bound env fuel INITIAL_GIT_FETCH_DEPTH initialState e
    (by simp [initialState]) (by simp [initialState]) hcl

/-- Witness for the amended C2: a classified (not-found) email with one
resolved user id gets one search and at most one import. -/
theorem c2_amended_at_most_one_search_witness :
    countSearch "bob@suse.com" (runMain envNoKey 40).tr ≤ 1 ∧
      countImport "bob@suse.com" (runMain envNoKey 40).tr ≤
        (uidsOf envNoKey "bob@suse.com").length :=
  c2_amended_at_most_one_search envNoKey 40 "bob@suse.com" (by decide)

set_option maxRecDepth 4000 in
/-- C3: in a run where the remote always has more history but no committer
key ever verifies a commit, the depth doubles from 2 up to 2^31 (31 fetch
events) and the loop then hits the `git_fetch_depth >= GIT_FETCH_DEPTH_LIMIT`
branch, which only logs and `break`s: `main` returns `None`, i.e. the
process terminates with exit status 0 and no checkout — not with the
non-zero `sys.exit` termination the claim describes. -/
theorem c3_depth_cap_normal_return :
    (runMain envBarren 40).res = RunResult.noCheckoutReturn ∧
      (fetchDepths (runMain envBarren 40).tr).length = 31 := by
  decide

/-- C4: whenever a fetch's transport output matches the
`"remote:.*Total 0 .*"` pattern (with no commit found yet, which is the only
situation in which a fetch runs), that fetch is the final event of the whole
run — nothing else, in particular no directory lookup, follows it in that
iteration — and the run terminates with the fatal "No new commits found on
server" exit.  This holds in particular on the very first fetch. -/
theorem c4_no_new_commits_fatal (env : Env) (fuel depth : Nat) (st : LoopState)
    (t1 t2 : List Event) (d : Nat) (ar : FetchArg) (o : String)
    (hsplit : (mainLoop env fuel depth st).tr = t1 ++ Event.fetch d ar o :: t2)
    (hmatch : matchesNoNewCommits o = true) :
    t2 = [] ∧ (mainLoop env fuel depth st).res =
      RunResult.fatalExit "No new commits found on server" :=
  mainLoop_total0 env fuel depth st t1 t2 d ar o hsplit hmatch

/-- Witness for C4: a remote reporting "Total 0" on the very first fetch
makes the run exit fatally with that fetch as the only event. -/
theorem c4_no_new_commits_fatal_witness :
    ([] : List Event) = [] ∧
      (mainLoop envTotalZero 1 INITIAL_GIT_FETCH_DEPTH initialState).res =
        RunResult.fatalExit "No new commits found on server" :=
  c4_no_new_commits_fatal envTotalZero 1 INITIAL_GIT_FETCH_DEPTH initialState
    [] [] 2 (FetchArg.depth 2) (envTotalZero.fetchOut 2) (by decide) (by decide)

/-- C5 counterexample: in the `envBadKey` run the email's key material is
fetched but its import fails (`gpg: no valid OpenPGP data found`); contrary
to the claim the email is classified neither as not-found nor as imported,
and it is queried again at the deeper fetch window (two directory
resolutions in the run). -/
theorem c5_import_failure_unclassified_cex :
    "bob@suse.com" ∉ (runMain envBadKey 40).st.notFound ∧
      "bob@suse.com" ∉ (runMain envBadKey 40).st.imported ∧
      countSearch "bob@suse.com" (runMain envBadKey 40).tr = 2 := by
  decide

/-- C5 (amended): an email lands in the not-found set only when some
resolved directory user ID's key fetch returned no key, and once classified
it is resolved at most once in the whole run; an email whose fetched key
material merely fails to import (or which resolves to no user IDs) is left
unclassified and may be re-queried at a deeper fetch window. -/
theorem c5_amended_not_found (env : Env) (fuel : Nat) (e : String)
    (hnf : e ∈ (runMain env fuel).st.notFound) :
    (∃ uid ∈ uidsOf env e, env.gpgKeyOf uid = none) ∧
      countSearch e (runMain env fuel).tr ≤ 1 := by
  constructor
  · rcases mainLoop_notFound_sub env fuel INITIAL_GIT_FETCH_DEPTH initialState
      e hnf with h | h
    · simp [initialState] at h
    · exact h
  · exact (mainLoop_classified_bound env fuel INITIAL_GIT_FETCH_DEPTH
      initialState e (by simp [initialState]) (by simp [initialState])
      (Or.inr hnf)).1

/-- Witness for the amended C5: a key-less user id classifies its email as
not-found, with a single directory resolution. -/
theorem c5_amended_not_found_witness :
    (∃ uid ∈ uidsOf envNoKey "bob@suse.com", envNoKey.gpgKeyOf uid = none) ∧
      countSearch "bob@suse.com" (runMain envNoKey 40).tr ≤ 1 :=
  c5_amended_not_found envNoKey 40 "bob@suse.com" (by decide)

/-- C6: over any run, the loop's fetch-depth values start at the initial
shallow value 2 and double each iteration (hence are non-decreasing), and
the depth value handed to the git transport (`depth` or capped `deepen`)
never exceeds the protocol maximum 2147483647. -/
theorem c6_depth_monotone_capped (env : Env) (fuel : Nat) :
    List.Chain' (fun a b => b = a * 2) (fetchDepths (runMain env fuel).tr) ∧
    List.Chain' (fun a b => a ≤ b) (fetchDepths (runMain env fuel).tr) ∧
    (∀ d ar o, Event.fetch d ar o ∈ (runMain env fuel).tr →
      transportedDepth ar ≤ GIT_FETCH_DEPTH_LIMIT) ∧
    (0 < fuel → (fetchDepths (runMain env fuel).tr).head? =
      some INITIAL_GIT_FETCH_DEPTH) := by
  refine ⟨?_, ?_, ?_, ?_⟩
  · exact doublingFrom_chain _ _
      (mainLoop_doubling env fuel INITIAL_GIT_FETCH_DEPTH initialState)
  · refine List.Chain'.imp ?_ (doublingFrom_chain _ _
      (mainLoop_doubling env fuel INITIAL_GIT_FETCH_DEPTH initialState))
    intro a b hab
    omega
  · intro d ar o hev
    obtain ⟨har, _⟩ := mainLoop_fetch_char env fuel INITIAL_GIT_FETCH_DEPTH
      initialState d ar o hev
    rw [har]
    exact transportedDepth_fetchArgOf_le d
  · exact fun hf => mainLoop_head env fuel INITIAL_GIT_FETCH_DEPTH initialState hf

/-- Witness for C6: with one unit of fuel the single fetch is at depth 2. -/
theorem c6_depth_monotone_capped_witness :
    (fetchDepths (runMain envBarren 1).tr).head? =
      some INITIAL_GIT_FETCH_DEPTH :=
  (c6_depth_monotone_capped envBarren 1).2.2.2 (by decide)

/-- C7: once any per-import re-scan returns a commit, the loop stops all
iteration immediately: the only event after the first successful scan in
the trace is the checkout of exactly the found hash (no further key fetch,
key import, email processing or history fetch occurs), and the run's result
is the checkout of that commit. -/
theorem c7_short_circuit (env : Env) (fuel depth : Nat) (st : LoopState) :
    stopsAtFound (mainLoop env fuel depth st).tr = true ∧
      ∀ h, Event.checkout h ∈ (mainLoop env fuel depth st).tr →
        (mainLoop env fuel depth st).res = RunResult.checkedOut h :=
  ⟨mainLoop_stops env fuel depth st,
    fun h hc => mainLoop_checkout_res env fuel depth st h hc⟩

/-- Witness for C7: in the `envGoodKey` run the first import makes a commit
verify and the run result is its checkout. -/
theorem c7_short_circuit_witness :
    (mainLoop envGoodKey 5 INITIAL_GIT_FETCH_DEPTH initialState).res =
      RunResult.checkedOut "cafe1234cafe1234cafe1234cafe1234cafe1234" :=
  (c7_short_circuit envGoodKey 5 INITIAL_GIT_FETCH_DEPTH initialState).2
    "cafe1234cafe1234cafe1234cafe1234cafe1234" (by decide)

/-- C8: in any run, an email ends in the imported set iff some key-import
attempt for it occurred whose result has return code 0 and whose stderr
diagnostic does not contain the "gpg: no valid OpenPGP data found" marker;
if either condition fails for every import of that email, it is not added
to the imported set. -/
theorem c8_import_classification (env : Env) (fuel : Nat) (e : String) :
    e ∈ (runMain env fuel).st.imported ↔
      ∃ k, Event.keyImport e k ∈ (runMain env fuel).tr ∧
        (env.importRes k).returncode = 0 ∧
        containsSub (env.importRes k).stderr
          "gpg: no valid OpenPGP data found" = false := by
  constructor
  · intro h
    rcases mainLoop_imported_sub env fuel INITIAL_GIT_FETCH_DEPTH initialState
      e h with h2 | ⟨k, hk, hok⟩
    · simp [initialState] at h2
    · simp only [importOk, Bool.and_eq_true, beq_iff_eq, Bool.not_eq_true'] at hok
      exact ⟨k, hk, hok.1, hok.2⟩
  · rintro ⟨k, hk, h0, hns⟩
    refine mainLoop_imported_super env fuel INITIAL_GIT_FETCH_DEPTH initialState
      e k hk ?_
    simp [importOk, h0, hns]

/-- Witness for C8: the successfully imported email of the `envTwoKeys` run
has a qualifying key-import event. -/
theorem c8_import_classification_witness :
    ∃ k, Event.keyImport "alice@suse.com" k ∈ (runMain envTwoKeys 40).tr ∧
      (envTwoKeys.importRes k).returncode = 0 ∧
      containsSub (envTwoKeys.importRes k).stderr
        "gpg: no valid OpenPGP data found" = false :=
  (c8_import_classification envTwoKeys 40 "alice@suse.com").mp (by decide)

/-- C9 counterexample: for the email ".a@b" the raw-email search returns
the empty list and the claim's fallback term — the local part before the
first '.' — is the empty string; the directory would return a match for
that term, yet resolution performs no fallback search (only the raw email
is ever queried) and returns no ids: the claimed "if and only if the raw
search is empty, it falls back to searching by the local part" is false. -/
theorem c9_empty_fragment_cex :
    searchEmptyTerm ".a@b" = [] ∧ baseNameOf ".a@b" = "" ∧
      searchEmptyTerm "" = [7] ∧
      fetch_user_uid searchEmptyTerm none (some ".a@b") = ⟨[".a@b"], []⟩ := by
  decide

/-- C9 (amended): for every nonempty email, resolution first queries the
directory with the raw email; if and only if that search returns an empty
list and the derived name fragment (the local part before the first '.')
is nonempty does one fallback search with that fragment occur; an empty
fragment yields no candidates without a second search. -/
theorem c9_amended_fallback (search : String → List Int) (email : String)
    (hne : email ≠ "") :
    (search email ≠ [] →
      fetch_user_uid search none (some email) = ⟨[email], search email⟩) ∧
    (search email = [] → baseNameOf email ≠ "" →
      fetch_user_uid search none (some email) =
        ⟨[email, baseNameOf email], search (baseNameOf email)⟩) ∧
    (search email = [] → baseNameOf email = "" →
      fetch_user_uid search none (some email) = ⟨[email], []⟩) := by
  refine ⟨?_, ?_, ?_⟩
  · intro h1
    unfold fetch_user_uid
    simp [hne, List.isEmpty_iff, h1]
  · intro h1 h2
    unfold fetch_user_uid
    simp [hne, List.isEmpty_iff, h1, h2]
  · intro h1 h2
    unfold fetch_user_uid
    simp [hne, List.isEmpty_iff, h1, h2]

/-- Witness for the amended C9: `jane.doe@x.org` falls back to the search
term `jane` and resolves via the fallback. -/
theorem c9_amended_fallback_witness :
    fetch_user_uid searchJane none (some "jane.doe@x.org") =
      ⟨["jane.doe@x.org", "jane"], [5]⟩ := by
  rw [(c9_amended_fallback searchJane "jane.doe@x.org" (by decide)).2.1
    (by decide) (by decide)]
  decide

/-- C10: `create_checkout_dir` never raises — it returns `DirResult.exc e`
exactly when a target directory was supplied and creating it failed with
`e`, returning the exception as a value — and `main` discards the returned
value entirely: the rest of the run is identical whatever `mkdir` and the
target do, so a directory-creation failure never by itself terminates the
run. -/
theorem c10_create_dir_total_ignored :
    (∀ (target : Option String) (mkdir : String → Except String Unit)
      (e : String),
      create_checkout_dir target mkdir = DirResult.exc e ↔
        ∃ p, target = some p ∧ mkdir p = Except.error e) ∧
    (∀ (m1 m2 : String → Except String Unit) (t1 t2 : Option String)
      (env : Env) (fuel : Nat),
      mainWithDir m1 t1 env fuel = mainWithDir m2 t2 env fuel) := by
  constructor
  · intro target mkdir e
    constructor
    · intro h
      cases target with
      | none => simp [create_checkout_dir] at h
      | some p =>
        cases hmk : mkdir p with
        | ok u => simp [create_checkout_dir, hmk] at h
        | error e' =>
          simp [create_checkout_dir, hmk] at h
          exact ⟨p, rfl, by rw [hmk, h]⟩
    · rintro ⟨p, rfl, hmk⟩
      simp [create_checkout_dir, hmk]
  · intro m1 m2 t1 t2 env fuel
    rfl

/-- Witness for C10: a permission failure is returned as a value. -/
theorem c10_create_dir_total_ignored_witness :
    create_checkout_dir (some "/srv/checkout")
      (fun _ => Except.error "Permission denied") =
      DirResult.exc "Permission denied" :=
  (c10_create_dir_total_ignored.1 (some "/srv/checkout")
    (fun _ => Except.error "Permission denied") "Permission denied").mpr
    ⟨"/srv/checkout", rfl, rfl⟩
